import Mathlib

/-!
Shallow embedding of `cola/libproject/feasible_projection_algorithm.cpp`
(C++ namespace `algorithm`): an incomplete active-set solver projecting
variable positions onto separation constraints.

Modelling conventions: C++ `double` is modelled by `ℚ`; pointers to
variables, constraints and blocks are modelled by indices into lists held
in the solver state; the mutation of a field becomes a functional update
of the corresponding list entry.  `DBL_MAX` from `<cfloat>` is the exact
rational value of the largest finite IEEE-754 double.
-/

namespace algorithm

/-- C++ `Variable`: current position `x`, desired position `d`, offset `b`
inside the owning block, owning block pointer (here an index into the
solver's block list) and the incident constraint lists — `out` holds the
constraints with this variable as left endpoint, `inn` is the source's
field `in` (a reserved word in Lean), the constraints with this variable
as right endpoint. -/
structure Variable where
  x : ℚ
  d : ℚ
  b : ℚ
  block : Nat
  out : List Nat
  inn : List Nat
deriving DecidableEq

instance : Inhabited Variable := ⟨⟨0, 0, 0, 0, [], []⟩⟩

/-- C++ `Constraint`: left and right endpoint (variable indices), gap `g`,
active flag and Lagrange multiplier `lm`.  The constructor initialises
`active = false`, `lm = 0`. -/
structure Constraint where
  l : Nat
  r : Nat
  g : ℚ
  active : Bool
  lm : ℚ
deriving DecidableEq

instance : Inhabited Constraint := ⟨⟨0, 0, 0, false, 0⟩⟩

/-- C++ `Block`: target position `X` (initialised to the desired position
of the founding variable), reference position at the start of the current
step `XI` (initialised to the founding variable's current position),
member variable list `V` and internal constraint list `C`. -/
structure Block where
  X : ℚ
  XI : ℚ
  V : List Nat
  C : List Nat
deriving DecidableEq

instance : Inhabited Block := ⟨⟨0, 0, [], []⟩⟩

/-- Solver state of `FeasibleProjectionAlgorithm`: variable list `vs`,
constraint list `cs`, block list `blocks`, and the set `inactive` of
constraint indices not currently active (a `std::set<Constraint*>` in the
source, modelled as a list iterated in order). -/
structure PState where
  vs : List Variable
  cs : List Constraint
  blocks : List Block
  inactive : List Nat
deriving DecidableEq

/-- C++ functor `sum_posdiff`: `acc + (v->d - v->b)`. -/
def sum_posdiff (acc : ℚ) (v : Variable) : ℚ := acc + (v.d - v.b)

/-- C++ `Block::optBlockPos`: `accumulate(V.begin(), V.end(), 0.0,
sum_posdiff()) / V.size()`, with the member pointers resolved through the
variable list. -/
def Block.optBlockPos (vars : List Variable) (blk : Block) : ℚ :=
  ((blk.V.map fun i => vars.getD i default).foldl sum_posdiff 0) / (blk.V.length : ℚ)

/-- Exact rational value of `DBL_MAX`, the largest finite IEEE-754
double, used by `MaxSafeAlpha` to initialise the running minimum. -/
def DBL_MAX : ℚ := 2 ^ 1024 - 2 ^ 971

/-- Body of `MaxSafeAlpha::operator()` for a single constraint: the step
fraction `alpha` computed from the blocks of the two endpoints.  `X` is
the block target position, `XI` the block reference position at the start
of the step, `b` the variable offset. -/
def safeAlphaOf (vars : List Variable) (blocks : List Block) (c : Constraint) : ℚ :=
  let Xl := (blocks.getD (vars.getD c.l default).block default).X
  let Xr := (blocks.getD (vars.getD c.r default).block default).X
  let bl := (vars.getD c.l default).b
  let br := (vars.getD c.r default).b
  if Xl + bl + c.g ≤ Xr + br then 1
  else
    let XIl := (blocks.getD (vars.getD c.l default).block default).XI
    let XIr := (blocks.getD (vars.getD c.r default).block default).XI
    let Al := XIl + bl
    let Ar := XIr + br
    let Bl := Xl - XIl
    let Br := Xr - XIr
    (c.g + Al - Ar) / (Br - Bl)

/-- One update step of the `MaxSafeAlpha` functor state `(safeC,
safeAlpha)`: compute `alpha` for the constraint at index `ci` and take it
as the new minimum when strictly smaller. -/
def maxSafeAlphaStep (vars : List Variable) (cs : List Constraint) (blocks : List Block)
    (acc : Option Nat × ℚ) (ci : Nat) : Option Nat × ℚ :=
  let alpha := safeAlphaOf vars blocks (cs.getD ci default)
  if alpha < acc.2 then (some ci, alpha) else acc

/-- The `for_each(inactive.begin(), inactive.end(), MaxSafeAlpha(c, alpha))`
pass: fold the functor over the inactive list starting from `safeC = NULL`
(modelled `none`) and `safeAlpha = DBL_MAX`. -/
def maxSafeAlpha (vars : List Variable) (cs : List Constraint) (blocks : List Block)
    (inactive : List Nat) : Option Nat × ℚ :=
  inactive.foldl (maxSafeAlphaStep vars cs blocks) (none, DBL_MAX)

/-- Loop body of the first loop in `Block::compute_dfdv` (over `v->out`):
for a constraint `c` with `c != last && c->active`, recurse on the right
endpoint, store the result in `c->lm` and add it to the running `dfdv`.
The recursive function is passed in as `dfdvF` (it is `compute_dfdv` at
one unit less fuel). -/
def dfdvOutStep (dfdvF : List Constraint → Nat → Option Nat → List Constraint × ℚ)
    (last : Option Nat) (acc : List Constraint × ℚ) (ci : Nat) : List Constraint × ℚ :=
  let c := acc.1.getD ci default
  if some ci ≠ last ∧ c.active = true then
    let res := dfdvF acc.1 c.r (some ci)
    (res.1.set ci { res.1.getD ci default with lm := res.2 }, acc.2 + res.2)
  else acc

/-- Loop body of the second loop in `Block::compute_dfdv` (over `v->in`):
for a constraint `c` with `c != last && c->active`, recurse on the left
endpoint, store the negated result in `c->lm` and subtract `c->lm` from
the running `dfdv`. -/
def dfdvInStep (dfdvF : List Constraint → Nat → Option Nat → List Constraint × ℚ)
    (last : Option Nat) (acc : List Constraint × ℚ) (ci : Nat) : List Constraint × ℚ :=
  let c := acc.1.getD ci default
  if some ci ≠ last ∧ c.active = true then
    let res := dfdvF acc.1 c.l (some ci)
    (res.1.set ci { res.1.getD ci default with lm := -res.2 }, acc.2 - -res.2)
  else acc

/-- C++ `Block::compute_dfdv(v, last)`.  The C++ recursion has no
structural termination measure (it relies on the active constraints
forming a tree), so the embedding takes an explicit fuel argument; with
fuel `0` the call returns the state unchanged and value `0`.  The
constraint list is threaded through because the recursion mutates the
`lm` fields. -/
def compute_dfdv (vars : List Variable) :
    Nat → List Constraint → Nat → Option Nat → List Constraint × ℚ
  | 0, cs, _, _ => (cs, 0)
  | fuel + 1, cs, v, last =>
    let var := vars.getD v default
    let s1 := var.out.foldl (dfdvOutStep (compute_dfdv vars fuel) last)
      (cs, 2 * (var.x - var.d))
    var.inn.foldl (dfdvInStep (compute_dfdv vars fuel) last) s1

/-- C++ functor `reset_lm`: `c->lm = 0`, applied to the constraint at
index `ci`. -/
def reset_lm (cs : List Constraint) (ci : Nat) : List Constraint :=
  cs.set ci { cs.getD ci default with lm := 0 }

/-- C++ `Block::computeLagrangians`: reset the multiplier of every
constraint in the block's list `C` to zero, then run `compute_dfdv(V[0],
NULL)` and keep the resulting constraint state.  The fuel for the
recursion is passed through. -/
def Block.computeLagrangians (vars : List Variable) (fuel : Nat) (cs : List Constraint)
    (blk : Block) : List Constraint :=
  (compute_dfdv vars fuel (blk.C.foldl reset_lm cs) (blk.V.getD 0 0) none).1

/-- C++ `Block::Block(Variable *v)` applied to the variable at index `vi`:
the new block has `X = v->d`, `XI = v->x`, member list `[v]` and an empty
constraint list.  (The constructor also mutates the variable, setting
`v->b = 0` and `v->block = this`; `init_blocks` accounts for that.) -/
def Block.ofVar (vi : Nat) (v : Variable) : Block :=
  { X := v.d, XI := v.x, V := [vi], C := [] }

/-- C++ `FeasibleProjectionAlgorithm::init_blocks`: push one new `Block`
per variable, in variable order; each `Block` constructor sets the
founding variable's offset `b` to `0` and its `block` pointer to the new
block (whose index is the number of blocks already present plus the
variable's position). -/
def init_blocks (st : PState) : PState :=
  { st with
    vs := st.vs.mapIdx fun i v => { v with b := 0, block := st.blocks.length + i },
    blocks := st.blocks ++ (List.range st.vs.length).map fun i =>
      Block.ofVar i (st.vs.getD i default) }

/-- C++ `FeasibleProjectionAlgorithm::make_active`: an unimplemented stub
with an empty body, hence the identity on the solver state. -/
def make_active (st : PState) (c : Nat) (alpha : ℚ) : PState := st

/-- C++ `FeasibleProjectionAlgorithm::make_inactive`: an unimplemented
stub with an empty body, hence the identity on the solver state. -/
def make_inactive (st : PState) (c : Nat) : PState := st

/-- C++ `FeasibleProjectionAlgorithm::split_blocks`: an unimplemented
stub with an empty body, hence the identity on the solver state. -/
def split_blocks (st : PState) : PState := st

/-- The `while (alpha < 1)` loop of `make_optimal`: recompute the
`MaxSafeAlpha` pass at the top of each round; while the minimum `alpha`
is below `1`, call `make_active` on the chosen constraint and erase it
from `inactive`.  The loop has no structural measure in the source (it
terminates because each round removes one constraint), so the embedding
takes fuel; `make_optimal` supplies fuel `inactive.length`, which the
termination theorem shows is enough.  A round with `alpha < 1` always
has a chosen constraint (`safeC != NULL`); the `none` branch is
unreachable and returns the state. -/
def makeOptimalLoop : Nat → PState → PState
  | 0, st => st
  | fuel + 1, st =>
    let res := maxSafeAlpha st.vs st.cs st.blocks st.inactive
    if res.2 < 1 then
      match res.1 with
      | some ci =>
        let st1 := make_active st ci res.2
        let st2 := { st1 with inactive := st1.inactive.erase ci }
        makeOptimalLoop fuel st2
      | none => st
    else st

/-- C++ `FeasibleProjectionAlgorithm::make_optimal`: run the activation
loop, then set `b->XI = b->X` for every block. -/
def make_optimal (st : PState) : PState :=
  let st1 := makeOptimalLoop st.inactive.length st
  { st1 with blocks := st1.blocks.map fun b => { b with XI := b.X } }

/-- Observable skeleton of a constraint list: endpoints and active flag
of every constraint.  `compute_dfdv` mutates only multipliers, so the
skeleton is invariant under it; the recursion's branching behaviour
depends only on the skeleton. -/
def skelOf (cs : List Constraint) : List (Nat × Nat × Bool) :=
  cs.map fun c => (c.l, c.r, c.active)

/-- Non-backtracking walks along active constraints, mirroring the call
structure of `Block::compute_dfdv`: from variable `v` with incoming edge
`last`, a step follows an active constraint of `v`'s `out` list to its
right endpoint or of `v`'s `inn` list to its left endpoint, never
immediately reversing the edge just taken.  The recursion's call stack
paths are exactly these walks. -/
inductive NBWalk (vars : List Variable) (cs : List Constraint) :
    Nat → Option Nat → List Nat → Prop
  | nil (v : Nat) (last : Option Nat) : NBWalk vars cs v last []
  | consOut (v : Nat) (last : Option Nat) (ci : Nat) (w : List Nat)
      (hne : some ci ≠ last) (hmem : ci ∈ (vars.getD v default).out)
      (hact : (cs.getD ci default).active = true)
      (htail : NBWalk vars cs (cs.getD ci default).r (some ci) w) :
      NBWalk vars cs v last (ci :: w)
  | consIn (v : Nat) (last : Option Nat) (ci : Nat) (w : List Nat)
      (hne : some ci ≠ last) (hmem : ci ∈ (vars.getD v default).inn)
      (hact : (cs.getD ci default).active = true)
      (htail : NBWalk vars cs (cs.getD ci default).l (some ci) w) :
      NBWalk vars cs v last (ci :: w)

/-- Instrumented out-edge step: identical to `dfdvOutStep` in its first
component, additionally appending the processed constraint index and the
recursive call's trace to a ghost trace. -/
def dfdvOutStepT (dfdvF : List Constraint → Nat → Option Nat → (List Constraint × ℚ) × List Nat)
    (last : Option Nat) (acc : (List Constraint × ℚ) × List Nat) (ci : Nat) :
    (List Constraint × ℚ) × List Nat :=
  let c := acc.1.1.getD ci default
  if some ci ≠ last ∧ c.active = true then
    let res := dfdvF acc.1.1 c.r (some ci)
    ((res.1.1.set ci { res.1.1.getD ci default with lm := res.1.2 }, acc.1.2 + res.1.2),
      acc.2 ++ ci :: res.2)
  else acc

/-- Instrumented in-edge step, as `dfdvOutStepT` for `dfdvInStep`. -/
def dfdvInStepT (dfdvF : List Constraint → Nat → Option Nat → (List Constraint × ℚ) × List Nat)
    (last : Option Nat) (acc : (List Constraint × ℚ) × List Nat) (ci : Nat) :
    (List Constraint × ℚ) × List Nat :=
  let c := acc.1.1.getD ci default
  if some ci ≠ last ∧ c.active = true then
    let res := dfdvF acc.1.1 c.l (some ci)
    ((res.1.1.set ci { res.1.1.getD ci default with lm := -res.1.2 }, acc.1.2 - -res.1.2),
      acc.2 ++ ci :: res.2)
  else acc

/-- Ghost-instrumented `compute_dfdv`: the first component is proved to
coincide with `compute_dfdv`; the second lists, in processing order, the
constraints whose then-branch was taken (the "processed" edges of the
recursion). -/
def compute_dfdvT (vars : List Variable) :
    Nat → List Constraint → Nat → Option Nat → (List Constraint × ℚ) × List Nat
  | 0, cs, _, _ => ((cs, 0), [])
  | fuel + 1, cs, v, last =>
    let var := vars.getD v default
    let s1 := var.out.foldl (dfdvOutStepT (compute_dfdvT vars fuel) last)
      ((cs, 2 * (var.x - var.d)), [])
    var.inn.foldl (dfdvInStepT (compute_dfdvT vars fuel) last) s1

/-- The edge `e` is reachable from `(v, last)` by a non-backtracking
active walk whose first edge is `ch` (and whose final edge is `e`). -/
def ReachesVia (vars : List Variable) (cs : List Constraint) (v : Nat) (last : Option Nat)
    (ch e : Nat) : Prop :=
  ∃ w, NBWalk vars cs v last (w ++ [e]) ∧ (w ++ [e]).head? = some ch

/-! ### Helper lemmas -/

/-- Folding `sum_posdiff` accumulates the sum of `d - b` over the list. -/
theorem foldl_sum_posdiff (l : List Variable) (a : ℚ) :
    l.foldl sum_posdiff a = a + (l.map fun v => v.d - v.b).sum := by
  induction l generalizing a with
  | nil => simp
  | cons v t ih => simp [sum_posdiff, ih, add_assoc]

/-! ### C4: Block::optBlockPos -/

/-- C4: `Block::optBlockPos` returns exactly `(1/|V|) · Σ (v.d − v.b)`
over the members `v`, and is a pure function of the member list and the
members' `d` and `b` fields: any two variable stores agreeing on those
fields for the block's members give the same result (the embedding is a
Lean function, so it has no side effects on any state). -/
theorem c4_optBlockPos_spec (vars vars' : List Variable) (blk : Block)
    (h : ∀ i ∈ blk.V, (vars.getD i default).d = (vars'.getD i default).d ∧
      (vars.getD i default).b = (vars'.getD i default).b) :
    Block.optBlockPos vars blk =
      ((blk.V.map fun i => (vars.getD i default).d - (vars.getD i default).b).sum)
        / (blk.V.length : ℚ)
    ∧ Block.optBlockPos vars blk = Block.optBlockPos vars' blk := by
  have key : ∀ vs : List Variable, Block.optBlockPos vs blk =
      ((blk.V.map fun i => (vs.getD i default).d - (vs.getD i default).b).sum)
        / (blk.V.length : ℚ) := by
    intro vs
    unfold Block.optBlockPos
    rw [foldl_sum_posdiff]
    simp [List.map_map, Function.comp_def]
  refine ⟨key vars, ?_⟩
  rw [key vars, key vars']
  congr 1
  refine congrArg List.sum (List.map_congr_left ?_)
  intro i hi
  rw [(h i hi).1, (h i hi).2]

/-- C4 witness: a concrete two-member block evaluated through the
theorem. -/
theorem c4_optBlockPos_spec_witness :
    Block.optBlockPos [⟨0, 4, 1, 0, [], []⟩, ⟨0, 7, 2, 0, [], []⟩] ⟨0, 0, [0, 1], []⟩ = 4 ∧
    Block.optBlockPos [⟨0, 4, 1, 0, [], []⟩, ⟨0, 7, 2, 0, [], []⟩] ⟨0, 0, [0, 1], []⟩ =
      Block.optBlockPos [⟨9, 4, 1, 5, [], []⟩, ⟨9, 7, 2, 5, [], []⟩] ⟨0, 0, [0, 1], []⟩ := by
  have h := c4_optBlockPos_spec [⟨0, 4, 1, 0, [], []⟩, ⟨0, 7, 2, 0, [], []⟩]
    [⟨9, 4, 1, 5, [], []⟩, ⟨9, 7, 2, 5, [], []⟩] ⟨0, 0, [0, 1], []⟩
    (by intro i hi; fin_cases hi <;> simp [List.getD])
  refine ⟨?_, h.2⟩
  rw [h.1]; norm_num [List.getD]

/-! ### C1: the per-constraint step fraction of MaxSafeAlpha -/

/-- C1: for a constraint examined by the Phase-1 pass, if the gap is
already satisfied at full interpolation (`Xl + bl + g ≤ Xr + br`, with
`X` the block target positions and `b` the offsets) the computed step
fraction is `1`; otherwise it is exactly `(g + Al − Ar) / (Br − Bl)`
where `Al = XIl + bl`, `Ar = XIr + br`, `Bl = Xl − XIl`, `Br = Xr − XIr`
(`XI` being the block reference positions at the start of the step). -/
theorem c1_safe_step_alpha (vars : List Variable) (blocks : List Block) (c : Constraint) :
    ((blocks.getD (vars.getD c.l default).block default).X + (vars.getD c.l default).b + c.g ≤
        (blocks.getD (vars.getD c.r default).block default).X + (vars.getD c.r default).b →
      safeAlphaOf vars blocks c = 1)
    ∧ (¬((blocks.getD (vars.getD c.l default).block default).X + (vars.getD c.l default).b + c.g ≤
        (blocks.getD (vars.getD c.r default).block default).X + (vars.getD c.r default).b) →
      safeAlphaOf vars blocks c =
        (c.g + ((blocks.getD (vars.getD c.l default).block default).XI + (vars.getD c.l default).b)
             - ((blocks.getD (vars.getD c.r default).block default).XI + (vars.getD c.r default).b))
        / (((blocks.getD (vars.getD c.r default).block default).X
              - (blocks.getD (vars.getD c.r default).block default).XI)
           - ((blocks.getD (vars.getD c.l default).block default).X
              - (blocks.getD (vars.getD c.l default).block default).XI))) := by
  constructor
  · intro h
    simp only [safeAlphaOf]
    rw [if_pos h]
  · intro h
    simp only [safeAlphaOf]
    rw [if_neg h]

/-- C1 witness: one satisfied constraint (step fraction `1`) and one
violated constraint (step fraction from the boundary formula, here
`1/2`), both through the theorem. -/
theorem c1_safe_step_alpha_witness :
    safeAlphaOf [⟨0, 0, 0, 0, [0], []⟩, ⟨0, 0, 0, 1, [], [0]⟩] [⟨0, 0, [0], []⟩, ⟨5, 0, [1], []⟩]
      ⟨0, 1, 2, false, 0⟩ = 1
    ∧ safeAlphaOf [⟨0, 0, 0, 0, [0], []⟩, ⟨0, 0, 0, 1, [], [0]⟩] [⟨4, 0, [0], []⟩, ⟨0, 0, [1], []⟩]
      ⟨0, 1, 2, false, 0⟩ = -(1 / 2) := by
  constructor
  · exact (c1_safe_step_alpha [⟨0, 0, 0, 0, [0], []⟩, ⟨0, 0, 0, 1, [], [0]⟩]
      [⟨0, 0, [0], []⟩, ⟨5, 0, [1], []⟩] ⟨0, 1, 2, false, 0⟩).1 (by norm_num [List.getD])
  · have h := (c1_safe_step_alpha [⟨0, 0, 0, 0, [0], []⟩, ⟨0, 0, 0, 1, [], [0]⟩]
      [⟨4, 0, [0], []⟩, ⟨0, 0, [1], []⟩] ⟨0, 1, 2, false, 0⟩).2 (by norm_num [List.getD])
    rw [h]; norm_num [List.getD]

/-! ### C2: the degenerate zero-denominator case -/

/-- C2 evaluation at the failing input: two singleton blocks both moving
from `XI = 0` to `X = 1` (so `Br − Bl = 0`) with a constraint of gap `1`
that is not satisfied at full interpolation.  The code has no special
branch for the zero denominator: it takes the else-branch and evaluates
`(g + Al − Ar) / (Br − Bl)` with denominator `0`.  In this rational model
division by zero yields `0` (an IEEE double evaluation yields `+inf`);
in neither semantics is the step fraction the `1` required by the spec's
degeneracy rule. -/
theorem c2_degenerate_denominator_eval :
    ¬(([⟨1, 0, [0], []⟩, ⟨1, 0, [1], []⟩] : List Block).getD 0 default).X
        + (([⟨0, 0, 0, 0, [0], []⟩, ⟨0, 0, 0, 1, [], [0]⟩] : List Variable).getD 0 default).b
        + (1 : ℚ) ≤
      (([⟨1, 0, [0], []⟩, ⟨1, 0, [1], []⟩] : List Block).getD 1 default).X
        + (([⟨0, 0, 0, 0, [0], []⟩, ⟨0, 0, 0, 1, [], [0]⟩] : List Variable).getD 1 default).b
    ∧ ((((⟨1, 0, [1], []⟩ : Block).X - (⟨1, 0, [1], []⟩ : Block).XI)
        - ((⟨1, 0, [0], []⟩ : Block).X - (⟨1, 0, [0], []⟩ : Block).XI)) = 0)
    ∧ safeAlphaOf [⟨0, 0, 0, 0, [0], []⟩, ⟨0, 0, 0, 1, [], [0]⟩]
        [⟨1, 0, [0], []⟩, ⟨1, 0, [1], []⟩] ⟨0, 1, 1, false, 0⟩ = 0
    ∧ safeAlphaOf [⟨0, 0, 0, 0, [0], []⟩, ⟨0, 0, 0, 1, [], [0]⟩]
        [⟨1, 0, [0], []⟩, ⟨1, 0, [1], []⟩] ⟨0, 1, 1, false, 0⟩ ≠ 1 := by
  refine ⟨by norm_num [List.getD], by norm_num, by norm_num [safeAlphaOf, List.getD],
    by norm_num [safeAlphaOf, List.getD]⟩

/-! ### C9: the unimplemented stubs are identities -/

/-- C9: `make_active`, `make_inactive` and `split_blocks` have empty
bodies in the source; each leaves the whole solver state — every
variable, every constraint, every block and the inactive set — exactly
unchanged. -/
theorem c9_stubs_identity (st : PState) (c : Nat) (alpha : ℚ) :
    make_active st c alpha = st ∧ make_inactive st c = st ∧ split_blocks st = st :=
  ⟨rfl, rfl, rfl⟩

/-! ### C10: the frame of make_optimal -/

/-- The activation loop only erases entries from `inactive`; the
variables, constraints and blocks are untouched. -/
theorem makeOptimalLoop_frame (fuel : Nat) (st : PState) :
    (makeOptimalLoop fuel st).vs = st.vs ∧ (makeOptimalLoop fuel st).cs = st.cs
    ∧ (makeOptimalLoop fuel st).blocks = st.blocks
    ∧ (makeOptimalLoop fuel st).inactive.Sublist st.inactive := by
  induction fuel generalizing st with
  | zero => exact ⟨rfl, rfl, rfl, List.Sublist.refl _⟩
  | succ n ih =>
    simp only [makeOptimalLoop]
    by_cases h : (maxSafeAlpha st.vs st.cs st.blocks st.inactive).2 < 1
    · rw [if_pos h]
      cases hc : (maxSafeAlpha st.vs st.cs st.blocks st.inactive).1 with
      | none => exact ⟨rfl, rfl, rfl, List.Sublist.refl _⟩
      | some ci =>
        have h' := ih { st with inactive := st.inactive.erase ci }
        exact ⟨h'.1, h'.2.1, h'.2.2.1,
          h'.2.2.2.trans (List.erase_sublist ci st.inactive)⟩
    · rw [if_neg h]
      exact ⟨rfl, rfl, rfl, List.Sublist.refl _⟩

/-- C10: `make_optimal` never modifies any variable (in particular no
current position, desired position or offset), any constraint (no active
flag, multiplier or endpoint) and no block membership; it only sets every
block's `XI` to that block's `X` at exit and removes activated
constraints from the inactive set (the resulting inactive list is a
sublist of the original). -/
theorem c10_make_optimal_frame (st : PState) :
    (make_optimal st).vs = st.vs ∧ (make_optimal st).cs = st.cs
    ∧ (make_optimal st).blocks = st.blocks.map (fun b => { b with XI := b.X })
    ∧ (make_optimal st).inactive.Sublist st.inactive := by
  have h := makeOptimalLoop_frame st.inactive.length st
  refine ⟨h.1, h.2.1, ?_, h.2.2.2⟩
  show (makeOptimalLoop st.inactive.length st).blocks.map _ = _
  rw [h.2.2.1]

/-! ### C8: init_blocks builds one singleton block per variable -/

/-- C8: at solve start `init_blocks` creates exactly one block per
variable; the block created for the `i`-th variable is a singleton with
member list `[i]`, reference `XI` equal to that variable's current
position `x` (and target `X` equal to its desired position), and the
constructor resets the variable's offset `b` to `0` and points its
`block` field at the new block. -/
theorem c8_init_blocks_singletons (st : PState) (i : Nat) (h : i < st.vs.length) :
    (init_blocks st).blocks.length = st.blocks.length + st.vs.length
    ∧ (init_blocks st).blocks.getD (st.blocks.length + i) default
        = { X := (st.vs.getD i default).d, XI := (st.vs.getD i default).x,
            V := [i], C := [] }
    ∧ ((init_blocks st).vs.getD i default).b = 0
    ∧ ((init_blocks st).vs.getD i default).block = st.blocks.length + i := by
  refine ⟨?_, ?_, ?_, ?_⟩
  · simp [init_blocks]
  · rw [init_blocks]
    rw [List.getD_append_right _ _ _ _ (by simp), List.getD_eq_getElem _ _ (by simpa using h)]
    simp [Block.ofVar]
  · rw [init_blocks]
    simp only [List.getD_eq_getElem _ _ (show i < (st.vs.mapIdx _).length by simpa using h)]
    rw [List.getElem_mapIdx]
  · rw [init_blocks]
    simp only [List.getD_eq_getElem _ _ (show i < (st.vs.mapIdx _).length by simpa using h)]
    rw [List.getElem_mapIdx]

/-- C8 witness: a two-variable state evaluated through the theorem. -/
theorem c8_init_blocks_singletons_witness :
    (init_blocks ⟨[⟨3, 7, 9, 4, [], []⟩, ⟨5, 6, 9, 4, [], []⟩], [], [], []⟩).blocks.length = 2
    ∧ (init_blocks ⟨[⟨3, 7, 9, 4, [], []⟩, ⟨5, 6, 9, 4, [], []⟩], [], [], []⟩).blocks.getD 1 default
        = { X := 6, XI := 5, V := [1], C := [] }
    ∧ ((init_blocks ⟨[⟨3, 7, 9, 4, [], []⟩, ⟨5, 6, 9, 4, [], []⟩], [], [], []⟩).vs.getD 1 default).b
        = 0
    ∧ ((init_blocks ⟨[⟨3, 7, 9, 4, [], []⟩, ⟨5, 6, 9, 4, [], []⟩], [], [], []⟩).vs.getD
        1 default).block = 1 := by
  have h := c8_init_blocks_singletons
    ⟨[⟨3, 7, 9, 4, [], []⟩, ⟨5, 6, 9, 4, [], []⟩], [], [], []⟩ 1 (by decide)
  exact ⟨h.1, h.2.1, h.2.2.1, h.2.2.2⟩

/-! ### The MaxSafeAlpha pass: minimum and selection -/

/-- A `min`-fold is bounded by its initial accumulator. -/
theorem foldl_min_le_init (l : List ℚ) (b : ℚ) : l.foldl min b ≤ b := by
  induction l generalizing b with
  | nil => exact le_refl b
  | cons a t ih => exact le_trans (ih (min b a)) (min_le_left b a)

/-- A `min`-fold is bounded by every list element. -/
theorem foldl_min_le_mem (l : List ℚ) (b : ℚ) (x : ℚ) : x ∈ l → l.foldl min b ≤ x := by
  induction l generalizing b with
  | nil => intro hx; cases hx
  | cons a t ih =>
    intro hx
    rcases List.mem_cons.mp hx with rfl | hx'
    · exact le_trans (foldl_min_le_init t (min b x)) (min_le_right b x)
    · exact ih (min b a) hx'

/-- The running minimum of the `MaxSafeAlpha` fold is the `min`-fold of
the per-constraint step fractions. -/
theorem maxSafeAlpha_foldl_val (vars : List Variable) (cs : List Constraint)
    (blocks : List Block) (l : List Nat) (acc : Option Nat × ℚ) :
    (l.foldl (maxSafeAlphaStep vars cs blocks) acc).2 =
      (l.map fun ci => safeAlphaOf vars blocks (cs.getD ci default)).foldl min acc.2 := by
  induction l generalizing acc with
  | nil => rfl
  | cons ci t ih =>
    rw [List.foldl_cons, List.map_cons, List.foldl_cons, ih]
    congr 1
    simp only [maxSafeAlphaStep]
    rcases lt_or_ge (safeAlphaOf vars blocks (cs.getD ci default)) acc.2 with h | h
    · rw [if_pos h, min_eq_right (le_of_lt h)]
    · rw [if_neg (not_lt.mpr h), min_eq_left h]

/-- If no element of the list beats the accumulator, the fold stalls. -/
theorem maxSafeAlpha_foldl_stall (vars : List Variable) (cs : List Constraint)
    (blocks : List Block) (l : List Nat) (acc : Option Nat × ℚ)
    (h : ∀ ci ∈ l, acc.2 ≤ safeAlphaOf vars blocks (cs.getD ci default)) :
    l.foldl (maxSafeAlphaStep vars cs blocks) acc = acc := by
  induction l with
  | nil => rfl
  | cons ci t ih =>
    rw [List.foldl_cons]
    have hstep : maxSafeAlphaStep vars cs blocks acc ci = acc := by
      simp only [maxSafeAlphaStep]
      rw [if_neg (not_lt.mpr (h ci (List.mem_cons_self ci t)))]
    rw [hstep]
    exact ih fun cj hj => h cj (List.mem_cons_of_mem ci hj)

/-- The fold either returns the accumulator unchanged or selects some
member of the list. -/
theorem maxSafeAlpha_foldl_cases (vars : List Variable) (cs : List Constraint)
    (blocks : List Block) (l : List Nat) (acc : Option Nat × ℚ) :
    l.foldl (maxSafeAlphaStep vars cs blocks) acc = acc
    ∨ ∃ ci ∈ l, (l.foldl (maxSafeAlphaStep vars cs blocks) acc).1 = some ci := by
  induction l generalizing acc with
  | nil => exact Or.inl rfl
  | cons ci t ih =>
    rw [List.foldl_cons]
    simp only [maxSafeAlphaStep]
    by_cases h : safeAlphaOf vars blocks (cs.getD ci default) < acc.2
    · rw [if_pos h]
      rcases ih (some ci, safeAlphaOf vars blocks (cs.getD ci default)) with heq | ⟨cj, hj, hs⟩
      · exact Or.inr ⟨ci, List.mem_cons_self ci t, by rw [heq]⟩
      · exact Or.inr ⟨cj, List.mem_cons_of_mem ci hj, hs⟩
    · rw [if_neg h]
      rcases ih acc with heq | ⟨cj, hj, hs⟩
      · exact Or.inl heq
      · exact Or.inr ⟨cj, List.mem_cons_of_mem ci hj, hs⟩

/-- When the fold strictly improves on the accumulator, the selected
constraint is the first list element attaining the final minimum. -/
theorem maxSafeAlpha_foldl_sel (vars : List Variable) (cs : List Constraint)
    (blocks : List Block) (l : List Nat) (acc : Option Nat × ℚ)
    (h : (l.foldl (maxSafeAlphaStep vars cs blocks) acc).2 < acc.2) :
    (l.foldl (maxSafeAlphaStep vars cs blocks) acc).1 =
      l.find? fun ci => decide (safeAlphaOf vars blocks (cs.getD ci default) =
        (l.foldl (maxSafeAlphaStep vars cs blocks) acc).2) := by
  induction l generalizing acc with
  | nil => exact absurd h (lt_irrefl _)
  | cons ci t ih =>
    rw [List.foldl_cons] at h ⊢
    by_cases hlt : safeAlphaOf vars blocks (cs.getD ci default) < acc.2
    · have hacc : maxSafeAlphaStep vars cs blocks acc ci =
          (some ci, safeAlphaOf vars blocks (cs.getD ci default)) := by
        simp only [maxSafeAlphaStep]; rw [if_pos hlt]
      rw [hacc] at h ⊢
      set acc' : Option Nat × ℚ := (some ci, safeAlphaOf vars blocks (cs.getD ci default))
        with hacc'
      by_cases hm : (t.foldl (maxSafeAlphaStep vars cs blocks) acc').2 <
          safeAlphaOf vars blocks (cs.getD ci default)
      · rw [ih acc' hm]
        rw [List.find?_cons_of_neg]
        simp only [decide_eq_true_eq]
        exact fun heq => absurd heq (ne_of_gt hm)
      · have hle : (t.foldl (maxSafeAlphaStep vars cs blocks) acc').2 ≤
            safeAlphaOf vars blocks (cs.getD ci default) := by
          rw [maxSafeAlpha_foldl_val]
          exact foldl_min_le_init _ _
        have heq : (t.foldl (maxSafeAlphaStep vars cs blocks) acc').2 =
            safeAlphaOf vars blocks (cs.getD ci default) :=
          le_antisymm hle (not_lt.mp hm)
        have hstall : t.foldl (maxSafeAlphaStep vars cs blocks) acc' = acc' := by
          apply maxSafeAlpha_foldl_stall
          intro cj hj
          have hv := maxSafeAlpha_foldl_val vars cs blocks t acc'
          have hmem := foldl_min_le_mem
            (t.map fun cj => safeAlphaOf vars blocks (cs.getD cj default))
            acc'.2 (safeAlphaOf vars blocks (cs.getD cj default))
            (List.mem_map_of_mem _ hj)
          rw [← hv, heq] at hmem
          exact hmem
        rw [hstall]
        rw [List.find?_cons_of_pos]
        simp only [decide_eq_true_eq]
    · have hacc : maxSafeAlphaStep vars cs blocks acc ci = acc := by
        simp only [maxSafeAlphaStep]; rw [if_neg hlt]
      rw [hacc] at h ⊢
      rw [ih acc h]
      rw [List.find?_cons_of_neg]
      simp only [decide_eq_true_eq]
      intro heq
      exact hlt (heq ▸ h)

/-! ### C5: minimum alpha and tie-break of the Phase-1 pass -/

/-- C5 counterexample: the pass does not always return the minimum step
fraction with its constraint.  One inactive constraint whose computed
step fraction is `DBL_MAX + 1` (gap `DBL_MAX + 1`, blocks fixed at
`XI = 0` with targets `0` and `1`): the minimum over the inactive set is
`DBL_MAX + 1`, attained by constraint `0`, but the pass returns
`safeC = NULL` (`none`) and `safeAlpha = DBL_MAX`, because the functor's
initial `DBL_MAX` is only improved by a strictly smaller alpha. -/
theorem c5_min_alpha_counterexample :
    safeAlphaOf [⟨0, 0, 0, 0, [0], []⟩, ⟨0, 0, 0, 1, [], [0]⟩] [⟨0, 0, [0], []⟩, ⟨1, 0, [1], []⟩]
        (([⟨0, 1, DBL_MAX + 1, false, 0⟩] : List Constraint).getD 0 default) = DBL_MAX + 1
    ∧ maxSafeAlpha [⟨0, 0, 0, 0, [0], []⟩, ⟨0, 0, 0, 1, [], [0]⟩] [⟨0, 1, DBL_MAX + 1, false, 0⟩]
        [⟨0, 0, [0], []⟩, ⟨1, 0, [1], []⟩] [0] = (none, DBL_MAX)
    ∧ (none : Option Nat) ≠ some 0
    ∧ DBL_MAX ≠ DBL_MAX + 1 := by
  refine ⟨?_, ?_, by simp, by norm_num⟩
  · norm_num [safeAlphaOf, List.getD, DBL_MAX]
  · have h1 : safeAlphaOf [⟨0, 0, 0, 0, [0], []⟩, ⟨0, 0, 0, 1, [], [0]⟩]
        [⟨0, 0, [0], []⟩, ⟨1, 0, [1], []⟩]
        (([⟨0, 1, DBL_MAX + 1, false, 0⟩] : List Constraint).getD 0 default) = DBL_MAX + 1 := by
      norm_num [safeAlphaOf, List.getD, DBL_MAX]
    simp only [maxSafeAlpha, List.foldl_cons, List.foldl_nil, maxSafeAlphaStep, h1]
    rw [if_neg (by norm_num)]

/-- C5 (amended): the pass returns the minimum of the `DBL_MAX` sentinel
and the step fractions of all inactive constraints; whenever that
minimum is strictly below `DBL_MAX`, the returned constraint is the
first one in iteration order whose step fraction equals the minimum — in
particular, ties at the minimum select the first constraint encountered.
Constraints whose step fraction is at least `DBL_MAX` are never
selected. -/
theorem c5_min_alpha_amended (vars : List Variable) (cs : List Constraint)
    (blocks : List Block) (inactive : List Nat) :
    (maxSafeAlpha vars cs blocks inactive).2 =
      (inactive.map fun ci => safeAlphaOf vars blocks (cs.getD ci default)).foldl min DBL_MAX
    ∧ ((maxSafeAlpha vars cs blocks inactive).2 < DBL_MAX →
      (maxSafeAlpha vars cs blocks inactive).1 =
        inactive.find? fun ci => decide (safeAlphaOf vars blocks (cs.getD ci default) =
          (maxSafeAlpha vars cs blocks inactive).2)) := by
  exact ⟨maxSafeAlpha_foldl_val vars cs blocks inactive (none, DBL_MAX),
    fun h => maxSafeAlpha_foldl_sel vars cs blocks inactive (none, DBL_MAX) h⟩

/-- C5 witness: two constraints tied at the minimum step fraction
`-(1/2)`; the pass returns that minimum and selects the first of the two
in iteration order. -/
theorem c5_min_alpha_amended_witness :
    (maxSafeAlpha [⟨0, 0, 0, 0, [0, 1], []⟩, ⟨0, 0, 0, 1, [], [0, 1]⟩]
      [⟨0, 1, 2, false, 0⟩, ⟨0, 1, 2, false, 0⟩]
      [⟨4, 0, [0], []⟩, ⟨0, 0, [1], []⟩] [0, 1]).2 = -(1 / 2)
    ∧ (maxSafeAlpha [⟨0, 0, 0, 0, [0, 1], []⟩, ⟨0, 0, 0, 1, [], [0, 1]⟩]
      [⟨0, 1, 2, false, 0⟩, ⟨0, 1, 2, false, 0⟩]
      [⟨4, 0, [0], []⟩, ⟨0, 0, [1], []⟩] [0, 1]).1 = some 0 := by
  have h := c5_min_alpha_amended [⟨0, 0, 0, 0, [0, 1], []⟩, ⟨0, 0, 0, 1, [], [0, 1]⟩]
    [⟨0, 1, 2, false, 0⟩, ⟨0, 1, 2, false, 0⟩]
    [⟨4, 0, [0], []⟩, ⟨0, 0, [1], []⟩] [0, 1]
  have halpha : safeAlphaOf [⟨0, 0, 0, 0, [0, 1], []⟩, ⟨0, 0, 0, 1, [], [0, 1]⟩]
      [⟨4, 0, [0], []⟩, ⟨0, 0, [1], []⟩]
      (([⟨0, 1, 2, false, 0⟩, ⟨0, 1, 2, false, 0⟩] : List Constraint).getD 0 default) =
      -(1 / 2) := by
    norm_num [safeAlphaOf, List.getD]
  have halpha1 : safeAlphaOf [⟨0, 0, 0, 0, [0, 1], []⟩, ⟨0, 0, 0, 1, [], [0, 1]⟩]
      [⟨4, 0, [0], []⟩, ⟨0, 0, [1], []⟩]
      (([⟨0, 1, 2, false, 0⟩, ⟨0, 1, 2, false, 0⟩] : List Constraint).getD 1 default) =
      -(1 / 2) := by
    norm_num [safeAlphaOf, List.getD]
  have hval : (maxSafeAlpha [⟨0, 0, 0, 0, [0, 1], []⟩, ⟨0, 0, 0, 1, [], [0, 1]⟩]
      [⟨0, 1, 2, false, 0⟩, ⟨0, 1, 2, false, 0⟩]
      [⟨4, 0, [0], []⟩, ⟨0, 0, [1], []⟩] [0, 1]).2 = -(1 / 2) := by
    rw [h.1]
    simp only [List.map_cons, List.map_nil, halpha, halpha1, List.foldl_cons, List.foldl_nil,
      min_def, DBL_MAX]
    norm_num
  refine ⟨hval, ?_⟩
  rw [h.2 (by rw [hval]; norm_num [DBL_MAX])]
  rw [hval, List.find?_cons_of_pos]
  simp only [halpha, decide_eq_true_eq]

/-! ### C6: each activation strictly shrinks the inactive set -/

/-- The sentinel `DBL_MAX` is above `1`. -/
theorem one_lt_DBL_MAX : (1 : ℚ) < DBL_MAX := by norm_num [DBL_MAX]

/-- When the pass's minimum is strictly below the sentinel, a constraint
from the list is selected. -/
theorem maxSafeAlpha_isSome (vars : List Variable) (cs : List Constraint)
    (blocks : List Block) (l : List Nat)
    (h : (maxSafeAlpha vars cs blocks l).2 < DBL_MAX) :
    ∃ ci ∈ l, (maxSafeAlpha vars cs blocks l).1 = some ci := by
  rcases maxSafeAlpha_foldl_cases vars cs blocks l (none, DBL_MAX) with heq | hsel
  · exact absurd h (by rw [show maxSafeAlpha vars cs blocks l =
      l.foldl (maxSafeAlphaStep vars cs blocks) (none, DBL_MAX) from rfl, heq]; exact lt_irrefl _)
  · exact hsel

/-- The activation loop is insensitive to extra fuel beyond the length
of the inactive list. -/
theorem makeOptimalLoop_stable (n : Nat) : ∀ (st : PState), st.inactive.length ≤ n →
    ∀ k, makeOptimalLoop (n + k) st = makeOptimalLoop n st := by
  induction n with
  | zero =>
    intro st hlen k
    have hnil : st.inactive = [] := List.eq_nil_of_length_eq_zero (Nat.le_zero.mp hlen)
    have hms : maxSafeAlpha st.vs st.cs st.blocks st.inactive = (none, DBL_MAX) := by
      rw [hnil]; rfl
    rw [Nat.zero_add]
    cases k with
    | zero => rfl
    | succ k' =>
      show makeOptimalLoop (k' + 1) st = st
      simp only [makeOptimalLoop, hms]
      rw [if_neg (not_lt.mpr (le_of_lt one_lt_DBL_MAX))]
  | succ n ih =>
    intro st hlen k
    rw [Nat.add_right_comm n 1 k]
    show makeOptimalLoop (n + k + 1) st = makeOptimalLoop (n + 1) st
    simp only [makeOptimalLoop]
    by_cases h : (maxSafeAlpha st.vs st.cs st.blocks st.inactive).2 < 1
    · rw [if_pos h, if_pos h]
      rcases maxSafeAlpha_isSome st.vs st.cs st.blocks st.inactive
        (lt_trans h one_lt_DBL_MAX) with ⟨ci, hmem, hsome⟩
      rw [hsome]
      have hlen2 : ({ st with inactive := st.inactive.erase ci } :
          PState).inactive.length ≤ n := by
        show (st.inactive.erase ci).length ≤ n
        have := List.length_erase_of_mem hmem
        omega
      exact ih { st with inactive := st.inactive.erase ci } hlen2 k
    · rw [if_neg h, if_neg h]

/-- C6: whenever the activation loop's condition holds (the minimum step
fraction is below `1`), the selected constraint belongs to the inactive
set and erasing it strictly shrinks that set by one; consequently the
loop is exhausted after at most as many rounds as there are constraints:
any fuel beyond `cs.length` leaves the result unchanged. -/
theorem c6_activation_loop_terminates (st : PState) (ci : Nat) (alpha : ℚ)
    (hms : maxSafeAlpha st.vs st.cs st.blocks st.inactive = (some ci, alpha))
    (hlt : alpha < 1) (hbound : st.inactive.length ≤ st.cs.length) :
    ci ∈ st.inactive
    ∧ (st.inactive.erase ci).length + 1 = st.inactive.length
    ∧ ∀ k, makeOptimalLoop (st.cs.length + k) st = makeOptimalLoop st.cs.length st := by
  have hval : (maxSafeAlpha st.vs st.cs st.blocks st.inactive).2 < DBL_MAX := by
    rw [hms]; exact lt_trans hlt one_lt_DBL_MAX
  rcases maxSafeAlpha_isSome st.vs st.cs st.blocks st.inactive hval with ⟨cj, hmem, hsome⟩
  have hcj : cj = ci := by
    rw [hms] at hsome
    exact (Option.some_inj.mp hsome.symm)
  rw [hcj] at hmem
  refine ⟨hmem, ?_, fun k => makeOptimalLoop_stable st.cs.length st hbound k⟩
  have := List.length_erase_of_mem hmem
  have hpos : 0 < st.inactive.length := List.length_pos_of_mem hmem
  omega

/-- C6 witness: a one-constraint state whose minimum step fraction is
`-(1/2) < 1`; the loop's selected constraint is in the inactive set,
erasing it shrinks the set from one to zero, and fuel beyond
`cs.length = 1` changes nothing. -/
theorem c6_activation_loop_terminates_witness :
    (0 : Nat) ∈ ([0] : List Nat)
    ∧ (([0] : List Nat).erase 0).length + 1 = ([0] : List Nat).length
    ∧ ∀ k, makeOptimalLoop (1 + k)
        ⟨[⟨0, 0, 0, 0, [0], []⟩, ⟨0, 0, 0, 1, [], [0]⟩], [⟨0, 1, 2, false, 0⟩],
          [⟨4, 0, [0], []⟩, ⟨0, 0, [1], []⟩], [0]⟩
      = makeOptimalLoop 1
        ⟨[⟨0, 0, 0, 0, [0], []⟩, ⟨0, 0, 0, 1, [], [0]⟩], [⟨0, 1, 2, false, 0⟩],
          [⟨4, 0, [0], []⟩, ⟨0, 0, [1], []⟩], [0]⟩ := by
  have halpha : safeAlphaOf [⟨0, 0, 0, 0, [0], []⟩, ⟨0, 0, 0, 1, [], [0]⟩]
      [⟨4, 0, [0], []⟩, ⟨0, 0, [1], []⟩]
      (([⟨0, 1, 2, false, 0⟩] : List Constraint).getD 0 default) = -(1 / 2) := by
    norm_num [safeAlphaOf, List.getD]
  have hms : maxSafeAlpha [⟨0, 0, 0, 0, [0], []⟩, ⟨0, 0, 0, 1, [], [0]⟩] [⟨0, 1, 2, false, 0⟩]
      [⟨4, 0, [0], []⟩, ⟨0, 0, [1], []⟩] [0] = (some 0, -(1 / 2)) := by
    simp only [maxSafeAlpha, List.foldl_cons, List.foldl_nil, maxSafeAlphaStep, halpha]
    rw [if_pos (by norm_num [DBL_MAX])]
  exact c6_activation_loop_terminates
    ⟨[⟨0, 0, 0, 0, [0], []⟩, ⟨0, 0, 0, 1, [], [0]⟩], [⟨0, 1, 2, false, 0⟩],
      [⟨4, 0, [0], []⟩, ⟨0, 0, [1], []⟩], [0]⟩ 0 (-(1 / 2)) hms (by norm_num) (by decide)

/-! ### C3: computeLagrangians and the dfdv recursion -/

/-- Resetting the multiplier at an index zeroes the multiplier read back
at that index. -/
theorem reset_lm_lm (cs : List Constraint) (ci : Nat) :
    ((reset_lm cs ci).getD ci default).lm = 0 := by
  induction cs generalizing ci with
  | nil => cases ci <;> rfl
  | cons c t ih =>
    cases ci with
    | zero => rfl
    | succ n => exact ih n

/-- Resetting the multiplier at one index does not disturb a zero
multiplier at any index. -/
theorem reset_lm_preserve (cs : List Constraint) (ci cj : Nat)
    (h0 : (cs.getD ci default).lm = 0) :
    ((reset_lm cs cj).getD ci default).lm = 0 := by
  by_cases hij : cj = ci
  · rw [hij]; exact reset_lm_lm cs ci
  · rw [reset_lm, List.getD_eq_getElem?_getD, List.getElem?_set_ne hij,
      ← List.getD_eq_getElem?_getD]
    exact h0

/-- After the reset fold of `computeLagrangians`, a zero multiplier is
preserved by the remaining resets. -/
theorem foldl_reset_lm_preserve (l : List Nat) (cs : List Constraint) (ci : Nat)
    (h0 : (cs.getD ci default).lm = 0) :
    ((l.foldl reset_lm cs).getD ci default).lm = 0 := by
  induction l generalizing cs with
  | nil => exact h0
  | cons a t ih => exact ih (reset_lm cs a) (reset_lm_preserve cs ci a h0)

/-- Every constraint mentioned in the reset list has multiplier zero
after the reset fold. -/
theorem foldl_reset_lm_mem (l : List Nat) (cs : List Constraint) (ci : Nat) (h : ci ∈ l) :
    ((l.foldl reset_lm cs).getD ci default).lm = 0 := by
  induction l generalizing cs with
  | nil => cases h
  | cons a t ih =>
    by_cases hmem : ci ∈ t
    · exact ih (reset_lm cs a) hmem
    · have hca : ci = a := by
        rcases List.mem_cons.mp h with heq | hmem'
        · exact heq
        · exact absurd hmem' hmem
      subst hca
      exact foldl_reset_lm_preserve t (reset_lm cs ci) ci (reset_lm_lm cs ci)

/-- A fold whose step preserves an observation of the constraint state
preserves it overall. -/
theorem foldl_fst_pres {γ : Type} (g : List Constraint → γ)
    (step : (List Constraint × ℚ) → Nat → List Constraint × ℚ)
    (hstep : ∀ acc ci, g (step acc ci).1 = g acc.1) (l : List Nat) :
    ∀ acc : List Constraint × ℚ, g ((l.foldl step acc).1) = g acc.1 := by
  induction l with
  | nil => intro acc; rfl
  | cons a t ih => intro acc; rw [List.foldl_cons, ih (step acc a), hstep acc a]

/-- `compute_dfdv` never changes the length of the constraint list. -/
theorem compute_dfdv_length (vars : List Variable) (fuel : Nat) :
    ∀ (cs : List Constraint) (v : Nat) (last : Option Nat),
    (compute_dfdv vars fuel cs v last).1.length = cs.length := by
  induction fuel with
  | zero => intro cs v last; rfl
  | succ n ih =>
    intro cs v last
    show ((((vars.getD v default).inn.foldl (dfdvInStep (compute_dfdv vars n) last)
      ((vars.getD v default).out.foldl (dfdvOutStep (compute_dfdv vars n) last)
        (cs, 2 * ((vars.getD v default).x - (vars.getD v default).d))))).1).length = cs.length
    have hout : ∀ (acc : List Constraint × ℚ) (ci : Nat),
        ((dfdvOutStep (compute_dfdv vars n) last acc ci).1).length = acc.1.length := by
      intro acc ci
      simp only [dfdvOutStep]
      by_cases hc : some ci ≠ last ∧ (acc.1.getD ci default).active = true
      · rw [if_pos hc]
        simp only [List.length_set]
        exact ih acc.1 (acc.1.getD ci default).r (some ci)
      · rw [if_neg hc]
    have hin : ∀ (acc : List Constraint × ℚ) (ci : Nat),
        ((dfdvInStep (compute_dfdv vars n) last acc ci).1).length = acc.1.length := by
      intro acc ci
      simp only [dfdvInStep]
      by_cases hc : some ci ≠ last ∧ (acc.1.getD ci default).active = true
      · rw [if_pos hc]
        simp only [List.length_set]
        exact ih acc.1 (acc.1.getD ci default).l (some ci)
      · rw [if_neg hc]
    rw [foldl_fst_pres List.length _ hin, foldl_fst_pres List.length _ hout]

/-- C3: `computeLagrangians` first zeroes the multiplier of every
constraint in the block's list `C`, then runs `compute_dfdv` from the
root member `V[0]` with no incoming edge; one level of `compute_dfdv`
starts from `2·(v.x − v.d)` and folds the out- and in-edge steps over the
variable's incident lists; an active out-edge `ci` distinct from `last`
has its multiplier set to the recursively computed `dfdv` of its right
endpoint, which is added to the running `dfdv`; an active in-edge `ci`
distinct from `last` has its multiplier set to the negated recursively
computed `dfdv` of its left endpoint, and that multiplier is subtracted
from the running `dfdv`. -/
theorem c3_computeLagrangians_spec (vars : List Variable) (fuel : Nat) (cs : List Constraint)
    (blk : Block) (v : Nat) (last : Option Nat) (acc : List Constraint × ℚ) (ci : Nat) :
    (ci ∈ blk.C → ((blk.C.foldl reset_lm cs).getD ci default).lm = 0)
    ∧ Block.computeLagrangians vars fuel cs blk =
        (compute_dfdv vars fuel (blk.C.foldl reset_lm cs) (blk.V.getD 0 0) none).1
    ∧ compute_dfdv vars (fuel + 1) cs v last =
        (vars.getD v default).inn.foldl (dfdvInStep (compute_dfdv vars fuel) last)
          ((vars.getD v default).out.foldl (dfdvOutStep (compute_dfdv vars fuel) last)
            (cs, 2 * ((vars.getD v default).x - (vars.getD v default).d)))
    ∧ (some ci ≠ last → (acc.1.getD ci default).active = true → ci < acc.1.length →
        (dfdvOutStep (compute_dfdv vars fuel) last acc ci).2
          = acc.2 + (compute_dfdv vars fuel acc.1 (acc.1.getD ci default).r (some ci)).2
        ∧ ((dfdvOutStep (compute_dfdv vars fuel) last acc ci).1.getD ci default).lm
          = (compute_dfdv vars fuel acc.1 (acc.1.getD ci default).r (some ci)).2)
    ∧ (some ci ≠ last → (acc.1.getD ci default).active = true → ci < acc.1.length →
        (dfdvInStep (compute_dfdv vars fuel) last acc ci).2
          = acc.2 - -(compute_dfdv vars fuel acc.1 (acc.1.getD ci default).l (some ci)).2
        ∧ ((dfdvInStep (compute_dfdv vars fuel) last acc ci).1.getD ci default).lm
          = -(compute_dfdv vars fuel acc.1 (acc.1.getD ci default).l (some ci)).2) := by
  refine ⟨fun h => foldl_reset_lm_mem blk.C cs ci h, rfl, rfl, ?_, ?_⟩
  · intro hne hact hlen
    have hcond : some ci ≠ last ∧ (acc.1.getD ci default).active = true := ⟨hne, hact⟩
    constructor
    · simp only [dfdvOutStep]
      rw [if_pos hcond]
    · simp only [dfdvOutStep]
      rw [if_pos hcond]
      have hlen' : ci <
          (compute_dfdv vars fuel acc.1 (acc.1.getD ci default).r (some ci)).1.length := by
        rw [compute_dfdv_length]; exact hlen
      rw [List.getD_eq_getElem?_getD, List.getElem?_set_self hlen', Option.getD_some]
  · intro hne hact hlen
    have hcond : some ci ≠ last ∧ (acc.1.getD ci default).active = true := ⟨hne, hact⟩
    constructor
    · simp only [dfdvInStep]
      rw [if_pos hcond]
    · simp only [dfdvInStep]
      rw [if_pos hcond]
      have hlen' : ci <
          (compute_dfdv vars fuel acc.1 (acc.1.getD ci default).l (some ci)).1.length := by
        rw [compute_dfdv_length]; exact hlen
      rw [List.getD_eq_getElem?_getD, List.getElem?_set_self hlen', Option.getD_some]

/-- C3 witness: a two-variable block with one active constraint: after
the reset the multiplier is zero; the out-step at constraint `0` adds
the recursive value `2` of the right endpoint and records it as the
multiplier; the in-step at constraint `0` records `-(-2) = 2` and
subtracts it. -/
theorem c3_computeLagrangians_spec_witness :
    ((([0] : List Nat).foldl reset_lm [⟨0, 1, 1, true, 5⟩]).getD 0 default).lm = 0
    ∧ (dfdvOutStep (compute_dfdv [⟨0, 1, 0, 0, [0], []⟩, ⟨0, -1, 0, 1, [], [0]⟩] 1) none
        ([⟨0, 1, 1, true, 5⟩], 3) 0).2 = 5
    ∧ ((dfdvOutStep (compute_dfdv [⟨0, 1, 0, 0, [0], []⟩, ⟨0, -1, 0, 1, [], [0]⟩] 1) none
        ([⟨0, 1, 1, true, 5⟩], 3) 0).1.getD 0 default).lm = 2
    ∧ (dfdvInStep (compute_dfdv [⟨0, 1, 0, 0, [0], []⟩, ⟨0, -1, 0, 1, [], [0]⟩] 1) none
        ([⟨0, 1, 1, true, 5⟩], 3) 0).2 = 1
    ∧ ((dfdvInStep (compute_dfdv [⟨0, 1, 0, 0, [0], []⟩, ⟨0, -1, 0, 1, [], [0]⟩] 1) none
        ([⟨0, 1, 1, true, 5⟩], 3) 0).1.getD 0 default).lm = -(-2) := by
  have h := c3_computeLagrangians_spec [⟨0, 1, 0, 0, [0], []⟩, ⟨0, -1, 0, 1, [], [0]⟩] 1
    [⟨0, 1, 1, true, 5⟩] ⟨0, 0, [0, 1], [0]⟩ 0 none ([⟨0, 1, 1, true, 5⟩], 3) 0
  have hreset := h.1 (by decide)
  have hout := h.2.2.2.1 (by decide) (by decide) (by decide)
  have hinn := h.2.2.2.2 (by decide) (by decide) (by decide)
  have hr : (compute_dfdv [⟨0, 1, 0, 0, [0], []⟩, ⟨0, -1, 0, 1, [], [0]⟩] 1
      ([⟨0, 1, 1, true, 5⟩] : List Constraint)
      ((([⟨0, 1, 1, true, 5⟩] : List Constraint).getD 0 default).r) (some 0)).2 = 2 := by
    show (compute_dfdv _ 1 _ 1 (some 0)).2 = 2
    simp [compute_dfdv, List.getD, dfdvOutStep, dfdvInStep]
  have hl : (compute_dfdv [⟨0, 1, 0, 0, [0], []⟩, ⟨0, -1, 0, 1, [], [0]⟩] 1
      ([⟨0, 1, 1, true, 5⟩] : List Constraint)
      ((([⟨0, 1, 1, true, 5⟩] : List Constraint).getD 0 default).l) (some 0)).2 = -2 := by
    show (compute_dfdv _ 1 _ 0 (some 0)).2 = -2
    simp [compute_dfdv, List.getD, dfdvOutStep, dfdvInStep]
  refine ⟨hreset, ?_, ?_, ?_, ?_⟩
  · rw [hout.1, hr]; norm_num
  · rw [hout.2, hr]
  · rw [hinn.1, hl]; norm_num
  · rw [hinn.2, hl]

/-! ### C7: termination of compute_dfdv over an acyclic active graph -/

/-- Two constraint lists with the same skeleton agree on endpoints and
active flags at every index. -/
theorem skelOf_getD (cs cs' : List Constraint) (h : skelOf cs = skelOf cs') (ci : Nat) :
    (cs.getD ci default).l = (cs'.getD ci default).l
    ∧ (cs.getD ci default).r = (cs'.getD ci default).r
    ∧ (cs.getD ci default).active = (cs'.getD ci default).active := by
  have key : ∀ u : List Constraint, (skelOf u).getD ci (0, 0, false)
      = ((u.getD ci default).l, (u.getD ci default).r, (u.getD ci default).active) := by
    intro u
    show (u.map fun c => (c.l, c.r, c.active)).getD ci (0, 0, false) = _
    have := List.getD_map (l := u) (n := ci) (fun c => (c.l, c.r, c.active))
      (d := (default : Constraint))
    exact this
  have h1 := (key cs).symm.trans (h ▸ key cs')
  exact ⟨congrArg Prod.fst h1, congrArg (fun p => p.2.1) h1, congrArg (fun p => p.2.2) h1⟩

/-- Updating only the multiplier of an entry leaves the skeleton
unchanged. -/
theorem skelOf_set_lm (cs : List Constraint) (ci : Nat) (x : ℚ) :
    skelOf (cs.set ci { cs.getD ci default with lm := x }) = skelOf cs := by
  induction cs generalizing ci with
  | nil => rfl
  | cons c t ih =>
    cases ci with
    | zero => rfl
    | succ n =>
      show skelOf (c :: t.set n { t.getD n default with lm := x }) = skelOf (c :: t)
      show (c.l, c.r, c.active) :: skelOf (t.set n { t.getD n default with lm := x })
        = (c.l, c.r, c.active) :: skelOf t
      rw [ih n]

/-- `compute_dfdv` preserves the skeleton: it mutates only multipliers. -/
theorem compute_dfdv_skel (vars : List Variable) (fuel : Nat) :
    ∀ (cs : List Constraint) (v : Nat) (last : Option Nat),
    skelOf (compute_dfdv vars fuel cs v last).1 = skelOf cs := by
  induction fuel with
  | zero => intro cs v last; rfl
  | succ n ih =>
    intro cs v last
    show skelOf ((((vars.getD v default).inn.foldl (dfdvInStep (compute_dfdv vars n) last)
      ((vars.getD v default).out.foldl (dfdvOutStep (compute_dfdv vars n) last)
        (cs, 2 * ((vars.getD v default).x - (vars.getD v default).d))))).1) = skelOf cs
    have hout : ∀ (acc : List Constraint × ℚ) (ci : Nat),
        skelOf ((dfdvOutStep (compute_dfdv vars n) last acc ci).1) = skelOf acc.1 := by
      intro acc ci
      simp only [dfdvOutStep]
      by_cases hc : some ci ≠ last ∧ (acc.1.getD ci default).active = true
      · rw [if_pos hc]
        show skelOf ((compute_dfdv vars n acc.1 (acc.1.getD ci default).r (some ci)).1.set ci
          _) = skelOf acc.1
        rw [skelOf_set_lm, ih]
      · rw [if_neg hc]
    have hin : ∀ (acc : List Constraint × ℚ) (ci : Nat),
        skelOf ((dfdvInStep (compute_dfdv vars n) last acc ci).1) = skelOf acc.1 := by
      intro acc ci
      simp only [dfdvInStep]
      by_cases hc : some ci ≠ last ∧ (acc.1.getD ci default).active = true
      · rw [if_pos hc]
        show skelOf ((compute_dfdv vars n acc.1 (acc.1.getD ci default).l (some ci)).1.set ci
          _) = skelOf acc.1
        rw [skelOf_set_lm, ih]
      · rw [if_neg hc]
    rw [foldl_fst_pres skelOf _ hin, foldl_fst_pres skelOf _ hout]

/-- Walks only depend on the skeleton of the constraint list. -/
theorem nbwalk_congr (vars : List Variable) {cs cs' : List Constraint}
    (h : skelOf cs = skelOf cs') {v : Nat} {last : Option Nat} {w : List Nat}
    (hw : NBWalk vars cs v last w) : NBWalk vars cs' v last w := by
  induction hw with
  | nil v' last' => exact NBWalk.nil v' last'
  | consOut v' last' ci w' hne hmem hact htail ih =>
    have hp := skelOf_getD cs cs' h ci
    refine NBWalk.consOut v' last' ci w' hne hmem ?_ ?_
    · rw [← hp.2.2]; exact hact
    · rw [← hp.2.1]; exact ih
  | consIn v' last' ci w' hne hmem hact htail ih =>
    have hp := skelOf_getD cs cs' h ci
    refine NBWalk.consIn v' last' ci w' hne hmem ?_ ?_
    · rw [← hp.2.2]; exact hact
    · rw [← hp.1]; exact ih

/-- Congruence of the out-edge fold under a walk bound: with enough fuel
on both sides, the fold over any sublist of the variable's `out` list
computes the same result, and preserves the skeleton. -/
theorem fold_out_congr (vars : List Variable) (m : Nat)
    (IH : ∀ (cs : List Constraint) (v : Nat) (last : Option Nat) (f g : Nat),
      (∀ w, NBWalk vars cs v last w → w.length < m) → m ≤ f → m ≤ g →
      compute_dfdv vars f cs v last = compute_dfdv vars g cs v last)
    (cs0 : List Constraint) (v : Nat) (last : Option Nat)
    (hb : ∀ w, NBWalk vars cs0 v last w → w.length < m + 1)
    (f g : Nat) (hf : m ≤ f) (hg : m ≤ g) :
    ∀ (l : List Nat), (∀ ci ∈ l, ci ∈ (vars.getD v default).out) →
    ∀ (acc : List Constraint × ℚ), skelOf acc.1 = skelOf cs0 →
      l.foldl (dfdvOutStep (compute_dfdv vars f) last) acc
        = l.foldl (dfdvOutStep (compute_dfdv vars g) last) acc
      ∧ skelOf ((l.foldl (dfdvOutStep (compute_dfdv vars f) last) acc).1) = skelOf cs0 := by
  intro l
  induction l with
  | nil => intro _ acc hsk; exact ⟨rfl, hsk⟩
  | cons ci t ih =>
    intro hsub acc hsk
    rw [List.foldl_cons, List.foldl_cons]
    by_cases hcond : some ci ≠ last ∧ (acc.1.getD ci default).active = true
    · have hwb : ∀ w, NBWalk vars acc.1 (acc.1.getD ci default).r (some ci) w →
          w.length < m := by
        intro w hw
        have hw0 : NBWalk vars cs0 (acc.1.getD ci default).r (some ci) w :=
          nbwalk_congr vars hsk hw
        have hp := skelOf_getD acc.1 cs0 hsk ci
        have hact0 : (cs0.getD ci default).active = true := by
          rw [← hp.2.2]; exact hcond.2
        have hwr : NBWalk vars cs0 (cs0.getD ci default).r (some ci) w := by
          rw [← hp.2.1]; exact hw0
        have hext : NBWalk vars cs0 v last (ci :: w) :=
          NBWalk.consOut v last ci w hcond.1 (hsub ci (List.mem_cons_self ci t)) hact0 hwr
        have hlen := hb (ci :: w) hext
        simpa using Nat.lt_of_succ_lt_succ (by simpa using hlen)
      have hrec : compute_dfdv vars f acc.1 (acc.1.getD ci default).r (some ci)
          = compute_dfdv vars g acc.1 (acc.1.getD ci default).r (some ci) :=
        IH acc.1 (acc.1.getD ci default).r (some ci) f g hwb hf hg
      have hstep : dfdvOutStep (compute_dfdv vars f) last acc ci
          = dfdvOutStep (compute_dfdv vars g) last acc ci := by
        simp only [dfdvOutStep]
        rw [if_pos hcond, if_pos hcond, hrec]
      have hsk' : skelOf ((dfdvOutStep (compute_dfdv vars f) last acc ci).1) = skelOf cs0 := by
        simp only [dfdvOutStep]
        rw [if_pos hcond]
        show skelOf ((compute_dfdv vars f acc.1 (acc.1.getD ci default).r (some ci)).1.set ci
          _) = skelOf cs0
        rw [skelOf_set_lm, compute_dfdv_skel]
        exact hsk
      have hrest := ih (fun cj hj => hsub cj (List.mem_cons_of_mem ci hj))
        (dfdvOutStep (compute_dfdv vars f) last acc ci) hsk'
      rw [← hstep]
      exact hrest
    · have hstepf : dfdvOutStep (compute_dfdv vars f) last acc ci = acc := by
        simp only [dfdvOutStep]; rw [if_neg hcond]
      have hstepg : dfdvOutStep (compute_dfdv vars g) last acc ci = acc := by
        simp only [dfdvOutStep]; rw [if_neg hcond]
      rw [hstepf, hstepg]
      exact ih (fun cj hj => hsub cj (List.mem_cons_of_mem ci hj)) acc hsk

/-- Congruence of the in-edge fold under a walk bound, as for
`fold_out_congr`. -/
theorem fold_in_congr (vars : List Variable) (m : Nat)
    (IH : ∀ (cs : List Constraint) (v : Nat) (last : Option Nat) (f g : Nat),
      (∀ w, NBWalk vars cs v last w → w.length < m) → m ≤ f → m ≤ g →
      compute_dfdv vars f cs v last = compute_dfdv vars g cs v last)
    (cs0 : List Constraint) (v : Nat) (last : Option Nat)
    (hb : ∀ w, NBWalk vars cs0 v last w → w.length < m + 1)
    (f g : Nat) (hf : m ≤ f) (hg : m ≤ g) :
    ∀ (l : List Nat), (∀ ci ∈ l, ci ∈ (vars.getD v default).inn) →
    ∀ (acc : List Constraint × ℚ), skelOf acc.1 = skelOf cs0 →
      l.foldl (dfdvInStep (compute_dfdv vars f) last) acc
        = l.foldl (dfdvInStep (compute_dfdv vars g) last) acc
      ∧ skelOf ((l.foldl (dfdvInStep (compute_dfdv vars f) last) acc).1) = skelOf cs0 := by
  intro l
  induction l with
  | nil => intro _ acc hsk; exact ⟨rfl, hsk⟩
  | cons ci t ih =>
    intro hsub acc hsk
    rw [List.foldl_cons, List.foldl_cons]
    by_cases hcond : some ci ≠ last ∧ (acc.1.getD ci default).active = true
    · have hwb : ∀ w, NBWalk vars acc.1 (acc.1.getD ci default).l (some ci) w →
          w.length < m := by
        intro w hw
        have hw0 : NBWalk vars cs0 (acc.1.getD ci default).l (some ci) w :=
          nbwalk_congr vars hsk hw
        have hp := skelOf_getD acc.1 cs0 hsk ci
        have hact0 : (cs0.getD ci default).active = true := by
          rw [← hp.2.2]; exact hcond.2
        have hwr : NBWalk vars cs0 (cs0.getD ci default).l (some ci) w := by
          rw [← hp.1]; exact hw0
        have hext : NBWalk vars cs0 v last (ci :: w) :=
          NBWalk.consIn v last ci w hcond.1 (hsub ci (List.mem_cons_self ci t)) hact0 hwr
        have hlen := hb (ci :: w) hext
        simpa using Nat.lt_of_succ_lt_succ (by simpa using hlen)
      have hrec : compute_dfdv vars f acc.1 (acc.1.getD ci default).l (some ci)
          = compute_dfdv vars g acc.1 (acc.1.getD ci default).l (some ci) :=
        IH acc.1 (acc.1.getD ci default).l (some ci) f g hwb hf hg
      have hstep : dfdvInStep (compute_dfdv vars f) last acc ci
          = dfdvInStep (compute_dfdv vars g) last acc ci := by
        simp only [dfdvInStep]
        rw [if_pos hcond, if_pos hcond, hrec]
      have hsk' : skelOf ((dfdvInStep (compute_dfdv vars f) last acc ci).1) = skelOf cs0 := by
        simp only [dfdvInStep]
        rw [if_pos hcond]
        show skelOf ((compute_dfdv vars f acc.1 (acc.1.getD ci default).l (some ci)).1.set ci
          _) = skelOf cs0
        rw [skelOf_set_lm, compute_dfdv_skel]
        exact hsk
      have hrest := ih (fun cj hj => hsub cj (List.mem_cons_of_mem ci hj))
        (dfdvInStep (compute_dfdv vars f) last acc ci) hsk'
      rw [← hstep]
      exact hrest
    · have hstepf : dfdvInStep (compute_dfdv vars f) last acc ci = acc := by
        simp only [dfdvInStep]; rw [if_neg hcond]
      have hstepg : dfdvInStep (compute_dfdv vars g) last acc ci = acc := by
        simp only [dfdvInStep]; rw [if_neg hcond]
      rw [hstepf, hstepg]
      exact ih (fun cj hj => hsub cj (List.mem_cons_of_mem ci hj)) acc hsk

/-- Fuel-stability of `compute_dfdv`: when every non-backtracking active
walk from the starting point is shorter than `m`, any two fuels of at
least `m` give the same result — the recursion terminates within depth
`m`. -/
theorem compute_dfdv_stable (vars : List Variable) :
    ∀ (m : Nat) (cs : List Constraint) (v : Nat) (last : Option Nat) (f g : Nat),
      (∀ w, NBWalk vars cs v last w → w.length < m) → m ≤ f → m ≤ g →
      compute_dfdv vars f cs v last = compute_dfdv vars g cs v last := by
  intro m
  induction m using Nat.strong_induction_on with
  | _ m IH =>
    intro cs v last f g hb hf hg
    cases m with
    | zero => exact absurd (hb [] (NBWalk.nil v last)) (by simp)
    | succ m' =>
      obtain ⟨f', rfl⟩ : ∃ f', f = f' + 1 := ⟨f - 1, by omega⟩
      obtain ⟨g', rfl⟩ : ∃ g', g = g' + 1 := ⟨g - 1, by omega⟩
      have hf' : m' ≤ f' := by omega
      have hg' : m' ≤ g' := by omega
      have IH' : ∀ (cs : List Constraint) (v : Nat) (last : Option Nat) (f g : Nat),
          (∀ w, NBWalk vars cs v last w → w.length < m') → m' ≤ f → m' ≤ g →
          compute_dfdv vars f cs v last = compute_dfdv vars g cs v last :=
        IH m' (by omega)
      have hout := fold_out_congr vars m' IH' cs v last hb f' g' hf' hg'
        (vars.getD v default).out (fun ci h => h)
        (cs, 2 * ((vars.getD v default).x - (vars.getD v default).d)) rfl
      have hin := fold_in_congr vars m' IH' cs v last hb f' g' hf' hg'
        (vars.getD v default).inn (fun ci h => h)
        ((vars.getD v default).out.foldl (dfdvOutStep (compute_dfdv vars f') last)
          (cs, 2 * ((vars.getD v default).x - (vars.getD v default).d))) hout.2
      show (vars.getD v default).inn.foldl (dfdvInStep (compute_dfdv vars f') last)
          ((vars.getD v default).out.foldl (dfdvOutStep (compute_dfdv vars f') last)
            (cs, 2 * ((vars.getD v default).x - (vars.getD v default).d)))
        = (vars.getD v default).inn.foldl (dfdvInStep (compute_dfdv vars g') last)
          ((vars.getD v default).out.foldl (dfdvOutStep (compute_dfdv vars g') last)
            (cs, 2 * ((vars.getD v default).x - (vars.getD v default).d)))
      rw [← hout.1]
      exact hin.1

/-- Every edge of a walk is an active constraint. -/
theorem nbwalk_edges_active (vars : List Variable) (cs : List Constraint)
    {v : Nat} {last : Option Nat} {w : List Nat} (hw : NBWalk vars cs v last w) :
    ∀ ci ∈ w, (cs.getD ci default).active = true := by
  induction hw with
  | nil v' last' => intro ci hci; cases hci
  | consOut v' last' ci w' hne hmem hact htail ih =>
    intro cj hcj
    rcases List.mem_cons.mp hcj with rfl | hcj'
    · exact hact
    · exact ih cj hcj'
  | consIn v' last' ci w' hne hmem hact htail ih =>
    intro cj hcj
    rcases List.mem_cons.mp hcj with rfl | hcj'
    · exact hact
    · exact ih cj hcj'

/-- Every edge of a walk is an index into the constraint list (the
default constraint is inactive, so an out-of-range index cannot carry an
active flag). -/
theorem nbwalk_edges_lt (vars : List Variable) (cs : List Constraint)
    {v : Nat} {last : Option Nat} {w : List Nat} (hw : NBWalk vars cs v last w) :
    ∀ ci ∈ w, ci < cs.length := by
  intro ci hci
  by_contra hge
  have hact := nbwalk_edges_active vars cs hw ci hci
  rw [List.getD_eq_default _ _ (not_lt.mp hge)] at hact
  exact Bool.false_ne_true hact

/-- A duplicate-free list of indices below `n` has length at most `n`. -/
theorem nodup_length_le (w : List Nat) (n : Nat) (hnd : w.Nodup)
    (hlt : ∀ ci ∈ w, ci < n) : w.length ≤ n := by
  have hsub : w.toFinset ⊆ Finset.range n := fun x hx =>
    Finset.mem_range.mpr (hlt x (List.mem_toFinset.mp hx))
  have hcard := Finset.card_le_card hsub
  rw [List.toFinset_card_of_nodup hnd] at hcard
  simpa using hcard

/-! ### The ghost trace: projection and monotonicity -/

/-- A fold of an instrumented step whose first component mirrors a plain
step projects onto the plain fold. -/
theorem foldl_T_fst (stepT : ((List Constraint × ℚ) × List Nat) → Nat →
      (List Constraint × ℚ) × List Nat)
    (step : (List Constraint × ℚ) → Nat → List Constraint × ℚ)
    (hstep : ∀ acc ci, (stepT acc ci).1 = step acc.1 ci) (l : List Nat) :
    ∀ acc, (l.foldl stepT acc).1 = l.foldl step acc.1 := by
  induction l with
  | nil => intro acc; rfl
  | cons a t ih =>
    intro acc
    rw [List.foldl_cons, List.foldl_cons, ih (stepT acc a), hstep acc a]

/-- The instrumented recursion projects onto `compute_dfdv`. -/
theorem compute_dfdvT_fst (vars : List Variable) (fuel : Nat) :
    ∀ (cs : List Constraint) (v : Nat) (last : Option Nat),
    (compute_dfdvT vars fuel cs v last).1 = compute_dfdv vars fuel cs v last := by
  induction fuel with
  | zero => intro cs v last; rfl
  | succ n ih =>
    intro cs v last
    have hout : ∀ (acc : (List Constraint × ℚ) × List Nat) (ci : Nat),
        (dfdvOutStepT (compute_dfdvT vars n) last acc ci).1
          = dfdvOutStep (compute_dfdv vars n) last acc.1 ci := by
      intro acc ci
      simp only [dfdvOutStepT, dfdvOutStep]
      by_cases hc : some ci ≠ last ∧ (acc.1.1.getD ci default).active = true
      · rw [if_pos hc, if_pos hc, ih]
      · rw [if_neg hc, if_neg hc]
    have hin : ∀ (acc : (List Constraint × ℚ) × List Nat) (ci : Nat),
        (dfdvInStepT (compute_dfdvT vars n) last acc ci).1
          = dfdvInStep (compute_dfdv vars n) last acc.1 ci := by
      intro acc ci
      simp only [dfdvInStepT, dfdvInStep]
      by_cases hc : some ci ≠ last ∧ (acc.1.1.getD ci default).active = true
      · rw [if_pos hc, if_pos hc, ih]
      · rw [if_neg hc, if_neg hc]
    show ((vars.getD v default).inn.foldl (dfdvInStepT (compute_dfdvT vars n) last)
        ((vars.getD v default).out.foldl (dfdvOutStepT (compute_dfdvT vars n) last)
          ((cs, 2 * ((vars.getD v default).x - (vars.getD v default).d)), []))).1
      = (vars.getD v default).inn.foldl (dfdvInStep (compute_dfdv vars n) last)
        ((vars.getD v default).out.foldl (dfdvOutStep (compute_dfdv vars n) last)
          (cs, 2 * ((vars.getD v default).x - (vars.getD v default).d)))
    rw [foldl_T_fst _ _ hin, foldl_T_fst _ _ hout]

/-- Traces only grow along an instrumented fold: each step either leaves
the accumulator unchanged or appends to its trace. -/
theorem foldl_T_trace_mono (stepT : ((List Constraint × ℚ) × List Nat) → Nat →
      (List Constraint × ℚ) × List Nat)
    (hstep : ∀ acc ci, ∃ t, (stepT acc ci).2 = acc.2 ++ t) (l : List Nat) :
    ∀ acc, ∃ t, (l.foldl stepT acc).2 = acc.2 ++ t := by
  induction l with
  | nil => intro acc; exact ⟨[], by simp⟩
  | cons a t ih =>
    intro acc
    obtain ⟨t1, ht1⟩ := hstep acc a
    obtain ⟨t2, ht2⟩ := ih (stepT acc a)
    exact ⟨t1 ++ t2, by rw [List.foldl_cons, ht2, ht1, List.append_assoc]⟩

/-- The two instrumented steps only append to the trace. -/
theorem dfdvStepT_trace_mono (vars : List Variable) (fuel : Nat) (last : Option Nat)
    (acc : (List Constraint × ℚ) × List Nat) (ci : Nat) :
    (∃ t, (dfdvOutStepT (compute_dfdvT vars fuel) last acc ci).2 = acc.2 ++ t)
    ∧ (∃ t, (dfdvInStepT (compute_dfdvT vars fuel) last acc ci).2 = acc.2 ++ t) := by
  constructor
  · simp only [dfdvOutStepT]
    by_cases hc : some ci ≠ last ∧ (acc.1.1.getD ci default).active = true
    · rw [if_pos hc]
      exact ⟨_, rfl⟩
    · rw [if_neg hc]
      exact ⟨[], by simp⟩
  · simp only [dfdvInStepT]
    by_cases hc : some ci ≠ last ∧ (acc.1.1.getD ci default).active = true
    · rw [if_pos hc]
      exact ⟨_, rfl⟩
    · rw [if_neg hc]
      exact ⟨[], by simp⟩

/-- Generic invariant preservation along an instrumented fold. -/
theorem foldl_T_inv (stepT : ((List Constraint × ℚ) × List Nat) → Nat →
      (List Constraint × ℚ) × List Nat)
    (Q : ((List Constraint × ℚ) × List Nat) → Prop) (l : List Nat)
    (hstep : ∀ acc ci, ci ∈ l → Q acc → Q (stepT acc ci)) :
    ∀ acc, Q acc → Q (l.foldl stepT acc) := by
  induction l with
  | nil => intro acc hQ; exact hQ
  | cons a t ih =>
    intro acc hQ
    rw [List.foldl_cons]
    exact ih (fun acc' ci hci => hstep acc' ci (List.mem_cons_of_mem a hci))
      (stepT acc a) (hstep acc a (List.mem_cons_self a t) hQ)

/-- The instrumented recursion preserves the skeleton (via the
projection onto `compute_dfdv`). -/
theorem compute_dfdvT_skel (vars : List Variable) (fuel : Nat) (cs : List Constraint)
    (v : Nat) (last : Option Nat) :
    skelOf (compute_dfdvT vars fuel cs v last).1.1 = skelOf cs := by
  have h := compute_dfdvT_fst vars fuel cs v last
  rw [show (compute_dfdvT vars fuel cs v last).1.1
    = (compute_dfdv vars fuel cs v last).1 from congrArg Prod.fst h]
  exact compute_dfdv_skel vars fuel cs v last

/-- Every constraint in the ghost trace is the final edge of some
non-backtracking active walk from the call's starting point: processed
edges are exactly walk-reachable edges (soundness direction). -/
theorem trace_mem_walk (vars : List Variable) (fuel : Nat) :
    ∀ (cs : List Constraint) (v : Nat) (last : Option Nat) (cs0 : List Constraint),
    skelOf cs = skelOf cs0 →
    ∀ e ∈ (compute_dfdvT vars fuel cs v last).2,
      ∃ w, NBWalk vars cs0 v last (w ++ [e]) := by
  induction fuel with
  | zero => intro cs v last cs0 hsk e he; cases he
  | succ n ih =>
    intro cs v last cs0 hsk e he
    have hQ : (fun acc : (List Constraint × ℚ) × List Nat =>
        skelOf acc.1.1 = skelOf cs0 ∧
        ∀ x ∈ acc.2, ∃ w, NBWalk vars cs0 v last (w ++ [x]))
        ((vars.getD v default).inn.foldl (dfdvInStepT (compute_dfdvT vars n) last)
          ((vars.getD v default).out.foldl (dfdvOutStepT (compute_dfdvT vars n) last)
            ((cs, 2 * ((vars.getD v default).x - (vars.getD v default).d)), []))) := by
      have hstepOut : ∀ (acc : (List Constraint × ℚ) × List Nat) (ci : Nat),
          ci ∈ (vars.getD v default).out →
          (skelOf acc.1.1 = skelOf cs0 ∧
            ∀ x ∈ acc.2, ∃ w, NBWalk vars cs0 v last (w ++ [x])) →
          skelOf (dfdvOutStepT (compute_dfdvT vars n) last acc ci).1.1 = skelOf cs0 ∧
            ∀ x ∈ (dfdvOutStepT (compute_dfdvT vars n) last acc ci).2,
              ∃ w, NBWalk vars cs0 v last (w ++ [x]) := by
        intro acc ci hmem hQ
        simp only [dfdvOutStepT]
        by_cases hc : some ci ≠ last ∧ (acc.1.1.getD ci default).active = true
        · rw [if_pos hc]
          have hp := skelOf_getD acc.1.1 cs0 hQ.1 ci
          have hact0 : (cs0.getD ci default).active = true := by
            rw [← hp.2.2]; exact hc.2
          refine ⟨?_, ?_⟩
          · show skelOf ((compute_dfdvT vars n acc.1.1 (acc.1.1.getD ci default).r
              (some ci)).1.1.set ci _) = skelOf cs0
            rw [skelOf_set_lm, compute_dfdvT_skel]
            exact hQ.1
          · intro x hx
            rcases List.mem_append.mp hx with hold | hnew
            · exact hQ.2 x hold
            · rcases List.mem_cons.mp hnew with rfl | hsub
              · exact ⟨[], NBWalk.consOut v last x [] hc.1 hmem hact0
                  (NBWalk.nil (cs0.getD x default).r (some x))⟩
              · obtain ⟨w', hw'⟩ := ih acc.1.1 (acc.1.1.getD ci default).r (some ci) cs0
                  hQ.1 x hsub
                refine ⟨ci :: w', ?_⟩
                show NBWalk vars cs0 v last (ci :: (w' ++ [x]))
                refine NBWalk.consOut v last ci (w' ++ [x]) hc.1 hmem hact0 ?_
                rw [← hp.2.1]
                exact hw'
        · rw [if_neg hc]; exact hQ
      have hstepIn : ∀ (acc : (List Constraint × ℚ) × List Nat) (ci : Nat),
          ci ∈ (vars.getD v default).inn →
          (skelOf acc.1.1 = skelOf cs0 ∧
            ∀ x ∈ acc.2, ∃ w, NBWalk vars cs0 v last (w ++ [x])) →
          skelOf (dfdvInStepT (compute_dfdvT vars n) last acc ci).1.1 = skelOf cs0 ∧
            ∀ x ∈ (dfdvInStepT (compute_dfdvT vars n) last acc ci).2,
              ∃ w, NBWalk vars cs0 v last (w ++ [x]) := by
        intro acc ci hmem hQ
        simp only [dfdvInStepT]
        by_cases hc : some ci ≠ last ∧ (acc.1.1.getD ci default).active = true
        · rw [if_pos hc]
          have hp := skelOf_getD acc.1.1 cs0 hQ.1 ci
          have hact0 : (cs0.getD ci default).active = true := by
            rw [← hp.2.2]; exact hc.2
          refine ⟨?_, ?_⟩
          · show skelOf ((compute_dfdvT vars n acc.1.1 (acc.1.1.getD ci default).l
              (some ci)).1.1.set ci _) = skelOf cs0
            rw [skelOf_set_lm, compute_dfdvT_skel]
            exact hQ.1
          · intro x hx
            rcases List.mem_append.mp hx with hold | hnew
            · exact hQ.2 x hold
            · rcases List.mem_cons.mp hnew with rfl | hsub
              · exact ⟨[], NBWalk.consIn v last x [] hc.1 hmem hact0
                  (NBWalk.nil (cs0.getD x default).l (some x))⟩
              · obtain ⟨w', hw'⟩ := ih acc.1.1 (acc.1.1.getD ci default).l (some ci) cs0
                  hQ.1 x hsub
                refine ⟨ci :: w', ?_⟩
                show NBWalk vars cs0 v last (ci :: (w' ++ [x]))
                refine NBWalk.consIn v last ci (w' ++ [x]) hc.1 hmem hact0 ?_
                rw [← hp.1]
                exact hw'
        · rw [if_neg hc]; exact hQ
      refine foldl_T_inv _ _ (vars.getD v default).inn hstepIn _
        (foldl_T_inv _ _ (vars.getD v default).out hstepOut
          ((cs, 2 * ((vars.getD v default).x - (vars.getD v default).d)), [])
          ⟨hsk, fun x hx => absurd hx (List.not_mem_nil x)⟩)
    exact hQ.2 e he

/-- If a constraint of the iterated list satisfies the processing
condition, its processing chunk reaches the final trace of the out-edge
fold: the chunk head `ci` itself, and everything the recursive subcall
traces from `ci`'s right endpoint. -/
theorem foldl_out_hits (vars : List Variable) (n : Nat) (last : Option Nat)
    (cs0 : List Constraint) (ci x : Nat)
    (hne : some ci ≠ last) (hact0 : (cs0.getD ci default).active = true)
    (hx : x = ci ∨ ∀ cs', skelOf cs' = skelOf cs0 →
      x ∈ (compute_dfdvT vars n cs' ((cs'.getD ci default).r) (some ci)).2) :
    ∀ (l : List Nat) (acc : (List Constraint × ℚ) × List Nat),
    skelOf acc.1.1 = skelOf cs0 → ci ∈ l →
    x ∈ (l.foldl (dfdvOutStepT (compute_dfdvT vars n) last) acc).2 := by
  intro l
  induction l with
  | nil => intro acc _ hmem; cases hmem
  | cons a t ih =>
    intro acc hsk hmem
    rw [List.foldl_cons]
    by_cases ha : a = ci
    · subst ha
      have hcond : some a ≠ last ∧ (acc.1.1.getD a default).active = true := by
        refine ⟨hne, ?_⟩
        rw [(skelOf_getD acc.1.1 cs0 hsk a).2.2]
        exact hact0
      have hchunk : x ∈ (dfdvOutStepT (compute_dfdvT vars n) last acc a).2 := by
        simp only [dfdvOutStepT]
        rw [if_pos hcond]
        show x ∈ acc.2 ++ a :: (compute_dfdvT vars n acc.1.1
          ((acc.1.1.getD a default).r) (some a)).2
        rcases hx with rfl | hsub
        · exact List.mem_append_right _ (List.mem_cons_self _ _)
        · exact List.mem_append_right _ (List.mem_cons_of_mem _ (hsub acc.1.1 hsk))
      obtain ⟨t2, ht2⟩ := foldl_T_trace_mono _ (fun acc' ci' =>
        (dfdvStepT_trace_mono vars n last acc' ci').1) t
        (dfdvOutStepT (compute_dfdvT vars n) last acc a)
      rw [ht2]
      exact List.mem_append_left _ hchunk
    · have hmem' : ci ∈ t := by
        rcases List.mem_cons.mp hmem with heq | h'
        · exact absurd heq.symm ha
        · exact h'
      have hsk' : skelOf (dfdvOutStepT (compute_dfdvT vars n) last acc a).1.1
          = skelOf cs0 := by
        simp only [dfdvOutStepT]
        by_cases hc : some a ≠ last ∧ (acc.1.1.getD a default).active = true
        · rw [if_pos hc]
          show skelOf ((compute_dfdvT vars n acc.1.1 ((acc.1.1.getD a default).r)
            (some a)).1.1.set a _) = skelOf cs0
          rw [skelOf_set_lm, compute_dfdvT_skel]
          exact hsk
        · rw [if_neg hc]; exact hsk
      exact ih (dfdvOutStepT (compute_dfdvT vars n) last acc a) hsk' hmem'

/-- The analogue of `foldl_out_hits` for the in-edge fold. -/
theorem foldl_in_hits (vars : List Variable) (n : Nat) (last : Option Nat)
    (cs0 : List Constraint) (ci x : Nat)
    (hne : some ci ≠ last) (hact0 : (cs0.getD ci default).active = true)
    (hx : x = ci ∨ ∀ cs', skelOf cs' = skelOf cs0 →
      x ∈ (compute_dfdvT vars n cs' ((cs'.getD ci default).l) (some ci)).2) :
    ∀ (l : List Nat) (acc : (List Constraint × ℚ) × List Nat),
    skelOf acc.1.1 = skelOf cs0 → ci ∈ l →
    x ∈ (l.foldl (dfdvInStepT (compute_dfdvT vars n) last) acc).2 := by
  intro l
  induction l with
  | nil => intro acc _ hmem; cases hmem
  | cons a t ih =>
    intro acc hsk hmem
    rw [List.foldl_cons]
    by_cases ha : a = ci
    · subst ha
      have hcond : some a ≠ last ∧ (acc.1.1.getD a default).active = true := by
        refine ⟨hne, ?_⟩
        rw [(skelOf_getD acc.1.1 cs0 hsk a).2.2]
        exact hact0
      have hchunk : x ∈ (dfdvInStepT (compute_dfdvT vars n) last acc a).2 := by
        simp only [dfdvInStepT]
        rw [if_pos hcond]
        show x ∈ acc.2 ++ a :: (compute_dfdvT vars n acc.1.1
          ((acc.1.1.getD a default).l) (some a)).2
        rcases hx with rfl | hsub
        · exact List.mem_append_right _ (List.mem_cons_self _ _)
        · exact List.mem_append_right _ (List.mem_cons_of_mem _ (hsub acc.1.1 hsk))
      obtain ⟨t2, ht2⟩ := foldl_T_trace_mono _ (fun acc' ci' =>
        (dfdvStepT_trace_mono vars n last acc' ci').2) t
        (dfdvInStepT (compute_dfdvT vars n) last acc a)
      rw [ht2]
      exact List.mem_append_left _ hchunk
    · have hmem' : ci ∈ t := by
        rcases List.mem_cons.mp hmem with heq | h'
        · exact absurd heq.symm ha
        · exact h'
      have hsk' : skelOf (dfdvInStepT (compute_dfdvT vars n) last acc a).1.1
          = skelOf cs0 := by
        simp only [dfdvInStepT]
        by_cases hc : some a ≠ last ∧ (acc.1.1.getD a default).active = true
        · rw [if_pos hc]
          show skelOf ((compute_dfdvT vars n acc.1.1 ((acc.1.1.getD a default).l)
            (some a)).1.1.set a _) = skelOf cs0
          rw [skelOf_set_lm, compute_dfdvT_skel]
          exact hsk
        · rw [if_neg hc]; exact hsk
      exact ih (dfdvInStepT (compute_dfdvT vars n) last acc a) hsk' hmem'

/-- The out-edge fold preserves the skeleton of its state. -/
theorem foldl_outT_skel (vars : List Variable) (n : Nat) (last : Option Nat)
    (cs0 : List Constraint) (l : List Nat) (acc : (List Constraint × ℚ) × List Nat)
    (hsk : skelOf acc.1.1 = skelOf cs0) :
    skelOf ((l.foldl (dfdvOutStepT (compute_dfdvT vars n) last) acc)).1.1 = skelOf cs0 := by
  refine foldl_T_inv _ (fun a => skelOf a.1.1 = skelOf cs0) l ?_ acc hsk
  intro acc' ci _ hsk'
  simp only [dfdvOutStepT]
  by_cases hc : some ci ≠ last ∧ (acc'.1.1.getD ci default).active = true
  · rw [if_pos hc]
    show skelOf ((compute_dfdvT vars n acc'.1.1 ((acc'.1.1.getD ci default).r)
      (some ci)).1.1.set ci _) = skelOf cs0
    rw [skelOf_set_lm, compute_dfdvT_skel]
    exact hsk'
  · rw [if_neg hc]; exact hsk'

/-- Completeness of the ghost trace: any edge reachable by a
non-backtracking active walk of length at most the fuel is processed. -/
theorem trace_complete (vars : List Variable) :
    ∀ (w : List Nat) (e : Nat) (cs : List Constraint) (v : Nat) (last : Option Nat)
      (cs0 : List Constraint), skelOf cs = skelOf cs0 →
    NBWalk vars cs0 v last (w ++ [e]) →
    ∀ fuel, (w ++ [e]).length ≤ fuel →
    e ∈ (compute_dfdvT vars fuel cs v last).2 := by
  intro w
  induction w with
  | nil =>
    intro e cs v last cs0 hsk hw fuel hfuel
    obtain ⟨n, rfl⟩ : ∃ n, fuel = n + 1 := ⟨fuel - 1, by simp at hfuel; omega⟩
    cases hw with
    | consOut v' last' ci w' hne hmem hact htail =>
      show e ∈ ((vars.getD v default).inn.foldl (dfdvInStepT (compute_dfdvT vars n) last)
        ((vars.getD v default).out.foldl (dfdvOutStepT (compute_dfdvT vars n) last)
          ((cs, 2 * ((vars.getD v default).x - (vars.getD v default).d)), []))).2
      obtain ⟨t2, ht2⟩ := foldl_T_trace_mono _ (fun acc' ci' =>
        (dfdvStepT_trace_mono vars n last acc' ci').2) (vars.getD v default).inn
        ((vars.getD v default).out.foldl (dfdvOutStepT (compute_dfdvT vars n) last)
          ((cs, 2 * ((vars.getD v default).x - (vars.getD v default).d)), []))
      rw [ht2]
      refine List.mem_append_left _ ?_
      exact foldl_out_hits vars n last cs0 e e hne hact (Or.inl rfl)
        (vars.getD v default).out _ hsk hmem
    | consIn v' last' ci w' hne hmem hact htail =>
      show e ∈ ((vars.getD v default).inn.foldl (dfdvInStepT (compute_dfdvT vars n) last)
        ((vars.getD v default).out.foldl (dfdvOutStepT (compute_dfdvT vars n) last)
          ((cs, 2 * ((vars.getD v default).x - (vars.getD v default).d)), []))).2
      refine foldl_in_hits vars n last cs0 e e hne hact (Or.inl rfl)
        (vars.getD v default).inn _ ?_ hmem
      exact foldl_outT_skel vars n last cs0 _ _ hsk
  | cons ci w' ih =>
    intro e cs v last cs0 hsk hw fuel hfuel
    obtain ⟨n, rfl⟩ : ∃ n, fuel = n + 1 := ⟨fuel - 1, by simp at hfuel; omega⟩
    have hlen' : (w' ++ [e]).length ≤ n := by simp at hfuel ⊢; omega
    cases hw with
    | consOut v' last' ci'' w'' hne hmem hact htail =>
      show e ∈ ((vars.getD v default).inn.foldl (dfdvInStepT (compute_dfdvT vars n) last)
        ((vars.getD v default).out.foldl (dfdvOutStepT (compute_dfdvT vars n) last)
          ((cs, 2 * ((vars.getD v default).x - (vars.getD v default).d)), []))).2
      obtain ⟨t2, ht2⟩ := foldl_T_trace_mono _ (fun acc' ci' =>
        (dfdvStepT_trace_mono vars n last acc' ci').2) (vars.getD v default).inn
        ((vars.getD v default).out.foldl (dfdvOutStepT (compute_dfdvT vars n) last)
          ((cs, 2 * ((vars.getD v default).x - (vars.getD v default).d)), []))
      rw [ht2]
      refine List.mem_append_left _ ?_
      refine foldl_out_hits vars n last cs0 ci e hne hact (Or.inr ?_)
        (vars.getD v default).out _ hsk hmem
      intro cs' hsk'
      refine ih e cs' ((cs'.getD ci default).r) (some ci) cs0 hsk' ?_ n hlen'
      rw [(skelOf_getD cs' cs0 hsk' ci).2.1]
      exact htail
    | consIn v' last' ci'' w'' hne hmem hact htail =>
      show e ∈ ((vars.getD v default).inn.foldl (dfdvInStepT (compute_dfdvT vars n) last)
        ((vars.getD v default).out.foldl (dfdvOutStepT (compute_dfdvT vars n) last)
          ((cs, 2 * ((vars.getD v default).x - (vars.getD v default).d)), []))).2
      refine foldl_in_hits vars n last cs0 ci e hne hact (Or.inr ?_)
        (vars.getD v default).inn _ (foldl_outT_skel vars n last cs0 _ _ hsk) hmem
      intro cs' hsk'
      refine ih e cs' ((cs'.getD ci default).l) (some ci) cs0 hsk' ?_ n hlen'
      rw [(skelOf_getD cs' cs0 hsk' ci).1]
      exact htail

/-- Under path uniqueness, the first edge of a walk to `e` is determined
by `e`. -/
theorem reachesVia_head_eq (vars : List Variable) (cs : List Constraint) (v : Nat)
    (last : Option Nat) (e ch1 ch2 : Nat)
    (huniq : ∀ e' w1 w2, NBWalk vars cs v last (w1 ++ [e']) →
      NBWalk vars cs v last (w2 ++ [e']) → w1 = w2)
    (h1 : ReachesVia vars cs v last ch1 e) (h2 : ReachesVia vars cs v last ch2 e) :
    ch1 = ch2 := by
  obtain ⟨w1, hw1, hh1⟩ := h1
  obtain ⟨w2, hw2, hh2⟩ := h2
  have := huniq e w1 w2 hw1 hw2
  subst this
  rw [hh1] at hh2
  exact Option.some_inj.mp hh2

/-- Nodup invariant through the out-edge fold: provided the processed
heads collected so far (`S`) exclude the constraints still to be
processed, the fold keeps the trace duplicate-free, every trace entry is
reached via a head in the extended `S'`, and `S'` only grows by members
of the iterated list. -/
theorem trace_fold_out_nodup (vars : List Variable) (n : Nat) (cs0 : List Constraint)
    (v : Nat) (last : Option Nat)
    (HN : ∀ (cs' : List Constraint) (v' : Nat) (last' : Option Nat),
      skelOf cs' = skelOf cs0 →
      (∀ e w1 w2, NBWalk vars cs0 v' last' (w1 ++ [e]) →
        NBWalk vars cs0 v' last' (w2 ++ [e]) → w1 = w2) →
      (∀ e w, NBWalk vars cs0 v' last' (w ++ [e]) →
        (cs0.getD e default).l ≠ (cs0.getD e default).r) →
      (compute_dfdvT vars n cs' v' last').2.Nodup)
    (huniq : ∀ e w1 w2, NBWalk vars cs0 v last (w1 ++ [e]) →
      NBWalk vars cs0 v last (w2 ++ [e]) → w1 = w2)
    (hsl : ∀ e w, NBWalk vars cs0 v last (w ++ [e]) →
      (cs0.getD e default).l ≠ (cs0.getD e default).r) :
    ∀ (l : List Nat), l.Nodup → (∀ ci ∈ l, ci ∈ (vars.getD v default).out) →
    ∀ (S : List Nat),
      (∀ ci ∈ l, (some ci ≠ last ∧ (cs0.getD ci default).active = true) → ci ∉ S) →
    ∀ (acc : (List Constraint × ℚ) × List Nat),
      skelOf acc.1.1 = skelOf cs0 → acc.2.Nodup →
      (∀ e ∈ acc.2, ∃ ch ∈ S, ReachesVia vars cs0 v last ch e) →
    ∃ S' : List Nat, (l.foldl (dfdvOutStepT (compute_dfdvT vars n) last) acc).2.Nodup
      ∧ (∀ e ∈ (l.foldl (dfdvOutStepT (compute_dfdvT vars n) last) acc).2,
          ∃ ch ∈ S', ReachesVia vars cs0 v last ch e)
      ∧ skelOf ((l.foldl (dfdvOutStepT (compute_dfdvT vars n) last) acc)).1.1 = skelOf cs0
      ∧ (∀ x ∈ S', x ∈ S ∨ x ∈ l) := by
  intro l
  induction l with
  | nil =>
    intro _ _ S _ acc hsk hnd hre
    exact ⟨S, hnd, hre, hsk, fun x hx => Or.inl hx⟩
  | cons ci t ih =>
    intro hlnd hlsub S hS acc hsk hnd hre
    rw [List.foldl_cons]
    have hmemout : ci ∈ (vars.getD v default).out := hlsub ci (List.mem_cons_self ci t)
    by_cases hc : some ci ≠ last ∧ (acc.1.1.getD ci default).active = true
    · -- processed: chunk ci :: sub appended
      have hp := skelOf_getD acc.1.1 cs0 hsk ci
      have hact0 : (cs0.getD ci default).active = true := by rw [← hp.2.2]; exact hc.2
      have hprep : ∀ w, NBWalk vars cs0 ((cs0.getD ci default).r) (some ci) w →
          NBWalk vars cs0 v last (ci :: w) := fun w hw =>
        NBWalk.consOut v last ci w hc.1 hmemout hact0 hw
      -- the processed step's trace
      have htr : (dfdvOutStepT (compute_dfdvT vars n) last acc ci).2
          = acc.2 ++ ci :: (compute_dfdvT vars n acc.1.1 ((acc.1.1.getD ci default).r)
                (some ci)).2 := by
        simp only [dfdvOutStepT]
        rw [if_pos hc]
      -- uniqueness and self-loop freeness relativised to the subcall
      have huniq' : ∀ e w1 w2,
          NBWalk vars cs0 ((cs0.getD ci default).r) (some ci) (w1 ++ [e]) →
          NBWalk vars cs0 ((cs0.getD ci default).r) (some ci) (w2 ++ [e]) → w1 = w2 := by
        intro e w1 w2 h1 h2
        have := huniq e (ci :: w1) (ci :: w2)
          (by rw [List.cons_append]; exact hprep _ h1)
          (by rw [List.cons_append]; exact hprep _ h2)
        exact List.tail_eq_of_cons_eq this
      have hsl' : ∀ e w, NBWalk vars cs0 ((cs0.getD ci default).r) (some ci) (w ++ [e]) →
          (cs0.getD e default).l ≠ (cs0.getD e default).r := by
        intro e w h1
        exact hsl e (ci :: w) (by rw [List.cons_append]; exact hprep _ h1)
      -- Nodup of the subcall's trace
      have hsubnd : (compute_dfdvT vars n acc.1.1 ((acc.1.1.getD ci default).r)
          (some ci)).2.Nodup := by
        rw [hp.2.1]
        exact HN acc.1.1 ((cs0.getD ci default).r) (some ci) hsk huniq' hsl'
      -- every subcall trace entry is reached via first edge ci
      have hsubre : ∀ x ∈ (compute_dfdvT vars n acc.1.1 ((acc.1.1.getD ci default).r)
          (some ci)).2, ReachesVia vars cs0 v last ci x := by
        intro x hx
        obtain ⟨w', hw'⟩ := trace_mem_walk vars n acc.1.1 ((acc.1.1.getD ci default).r)
          (some ci) cs0 hsk x hx
        rw [hp.2.1] at hw'
        refine ⟨ci :: w', ?_, by simp⟩
        rw [List.cons_append]
        exact hprep _ hw'
      have hcire : ReachesVia vars cs0 v last ci ci :=
        ⟨[], by simpa using hprep [] (NBWalk.nil _ _), by simp⟩
      -- ci is not in its own subtrace
      have hcinotsub : ci ∉ (compute_dfdvT vars n acc.1.1 ((acc.1.1.getD ci default).r)
          (some ci)).2 := by
        intro hmem
        obtain ⟨w', hw', _⟩ := hsubre ci hmem
        obtain ⟨w0, hw0, _⟩ := hcire
        have := huniq ci w' w0 hw' hw0
        subst this
        obtain ⟨w'', hw''⟩ := trace_mem_walk vars n acc.1.1 ((acc.1.1.getD ci default).r)
          (some ci) cs0 hsk ci hmem
        rw [hp.2.1] at hw''
        have huw := huniq ci (ci :: w'') [] (by rw [List.cons_append]; exact hprep _ hw'')
          (by simpa using hprep [] (NBWalk.nil _ _))
        cases huw
      -- chunk is duplicate-free
      have hchunknd : (ci :: (compute_dfdvT vars n acc.1.1 ((acc.1.1.getD ci default).r)
          (some ci)).2).Nodup := List.nodup_cons.mpr ⟨hcinotsub, hsubnd⟩
      -- old trace and chunk are disjoint
      have hdisj : ∀ e ∈ acc.2, e ∉ (ci :: (compute_dfdvT vars n acc.1.1
          ((acc.1.1.getD ci default).r) (some ci)).2) := by
        intro e he hmem
        obtain ⟨ch, hchS, hchre⟩ := hre e he
        have hcire2 : ReachesVia vars cs0 v last ci e := by
          rcases List.mem_cons.mp hmem with rfl | hsub
          · exact hcire
          · exact hsubre e hsub
        have hchci := reachesVia_head_eq vars cs0 v last e ch ci huniq hchre hcire2
        rw [hchci] at hchS
        exact hS ci (List.mem_cons_self ci t) ⟨hc.1, hact0⟩ hchS
      -- invariants for the recursive fold over t
      have hnd2 : (dfdvOutStepT (compute_dfdvT vars n) last acc ci).2.Nodup := by
        rw [htr]
        exact List.Nodup.append hnd hchunknd (fun e he hmem => hdisj e he hmem)
      have hre2 : ∀ e ∈ (dfdvOutStepT (compute_dfdvT vars n) last acc ci).2,
          ∃ ch ∈ S ++ [ci], ReachesVia vars cs0 v last ch e := by
        rw [htr]
        intro e he
        rcases List.mem_append.mp he with hold | hnew
        · obtain ⟨ch, hchS, hchre⟩ := hre e hold
          exact ⟨ch, List.mem_append_left _ hchS, hchre⟩
        · rcases List.mem_cons.mp hnew with rfl | hsub
          · exact ⟨e, List.mem_append_right _ (List.mem_singleton.mpr rfl), hcire⟩
          · exact ⟨ci, List.mem_append_right _ (List.mem_singleton.mpr rfl), hsubre e hsub⟩
      have hsk2 : skelOf (dfdvOutStepT (compute_dfdvT vars n) last acc ci).1.1
          = skelOf cs0 := by
        simp only [dfdvOutStepT]
        rw [if_pos hc]
        show skelOf ((compute_dfdvT vars n acc.1.1 ((acc.1.1.getD ci default).r)
          (some ci)).1.1.set ci _) = skelOf cs0
        rw [skelOf_set_lm, compute_dfdvT_skel]
        exact hsk
      have hS2 : ∀ cj ∈ t, (some cj ≠ last ∧ (cs0.getD cj default).active = true) →
          cj ∉ S ++ [ci] := by
        intro cj hcj hcond hmem
        rcases List.mem_append.mp hmem with hS' | hci'
        · exact hS cj (List.mem_cons_of_mem ci hcj) hcond hS'
        · have : cj = ci := List.mem_singleton.mp hci'
          subst this
          exact (List.nodup_cons.mp hlnd).1 hcj
      obtain ⟨S', hS'1, hS'2, hS'3, hS'4⟩ := ih (List.nodup_cons.mp hlnd).2
        (fun cj hcj => hlsub cj (List.mem_cons_of_mem ci hcj)) (S ++ [ci]) hS2
        (dfdvOutStepT (compute_dfdvT vars n) last acc ci) hsk2 hnd2 hre2
      refine ⟨S', hS'1, hS'2, hS'3, ?_⟩
      intro x hx
      rcases hS'4 x hx with hxS | hxt
      · rcases List.mem_append.mp hxS with h1 | h2
        · exact Or.inl h1
        · exact Or.inr (List.mem_singleton.mp h2 ▸ List.mem_cons_self ci t)
      · exact Or.inr (List.mem_cons_of_mem ci hxt)
    · -- skipped: accumulator unchanged
      have hstep : dfdvOutStepT (compute_dfdvT vars n) last acc ci = acc := by
        simp only [dfdvOutStepT]; rw [if_neg hc]
      rw [hstep]
      obtain ⟨S', h1, h2, h3, h4⟩ := ih (List.nodup_cons.mp hlnd).2
        (fun cj hcj => hlsub cj (List.mem_cons_of_mem ci hcj)) S
        (fun cj hcj hcond => hS cj (List.mem_cons_of_mem ci hcj) hcond) acc hsk hnd hre
      refine ⟨S', h1, h2, h3, ?_⟩
      intro x hx
      rcases h4 x hx with h | h
      · exact Or.inl h
      · exact Or.inr (List.mem_cons_of_mem ci h)

/-- Nodup invariant through the in-edge fold, as `trace_fold_out_nodup`. -/
theorem trace_fold_in_nodup (vars : List Variable) (n : Nat) (cs0 : List Constraint)
    (v : Nat) (last : Option Nat)
    (HN : ∀ (cs' : List Constraint) (v' : Nat) (last' : Option Nat),
      skelOf cs' = skelOf cs0 →
      (∀ e w1 w2, NBWalk vars cs0 v' last' (w1 ++ [e]) →
        NBWalk vars cs0 v' last' (w2 ++ [e]) → w1 = w2) →
      (∀ e w, NBWalk vars cs0 v' last' (w ++ [e]) →
        (cs0.getD e default).l ≠ (cs0.getD e default).r) →
      (compute_dfdvT vars n cs' v' last').2.Nodup)
    (huniq : ∀ e w1 w2, NBWalk vars cs0 v last (w1 ++ [e]) →
      NBWalk vars cs0 v last (w2 ++ [e]) → w1 = w2)
    (hsl : ∀ e w, NBWalk vars cs0 v last (w ++ [e]) →
      (cs0.getD e default).l ≠ (cs0.getD e default).r) :
    ∀ (l : List Nat), l.Nodup → (∀ ci ∈ l, ci ∈ (vars.getD v default).inn) →
    ∀ (S : List Nat),
      (∀ ci ∈ l, (some ci ≠ last ∧ (cs0.getD ci default).active = true) → ci ∉ S) →
    ∀ (acc : (List Constraint × ℚ) × List Nat),
      skelOf acc.1.1 = skelOf cs0 → acc.2.Nodup →
      (∀ e ∈ acc.2, ∃ ch ∈ S, ReachesVia vars cs0 v last ch e) →
    ∃ S' : List Nat, (l.foldl (dfdvInStepT (compute_dfdvT vars n) last) acc).2.Nodup
      ∧ (∀ e ∈ (l.foldl (dfdvInStepT (compute_dfdvT vars n) last) acc).2,
          ∃ ch ∈ S', ReachesVia vars cs0 v last ch e)
      ∧ skelOf ((l.foldl (dfdvInStepT (compute_dfdvT vars n) last) acc)).1.1 = skelOf cs0
      ∧ (∀ x ∈ S', x ∈ S ∨ x ∈ l) := by
  intro l
  induction l with
  | nil =>
    intro _ _ S _ acc hsk hnd hre
    exact ⟨S, hnd, hre, hsk, fun x hx => Or.inl hx⟩
  | cons ci t ih =>
    intro hlnd hlsub S hS acc hsk hnd hre
    rw [List.foldl_cons]
    have hmeminn : ci ∈ (vars.getD v default).inn := hlsub ci (List.mem_cons_self ci t)
    by_cases hc : some ci ≠ last ∧ (acc.1.1.getD ci default).active = true
    · have hp := skelOf_getD acc.1.1 cs0 hsk ci
      have hact0 : (cs0.getD ci default).active = true := by rw [← hp.2.2]; exact hc.2
      have hprep : ∀ w, NBWalk vars cs0 ((cs0.getD ci default).l) (some ci) w →
          NBWalk vars cs0 v last (ci :: w) := fun w hw =>
        NBWalk.consIn v last ci w hc.1 hmeminn hact0 hw
      have htr : (dfdvInStepT (compute_dfdvT vars n) last acc ci).2
          = acc.2 ++ ci :: (compute_dfdvT vars n acc.1.1 ((acc.1.1.getD ci default).l)
                (some ci)).2 := by
        simp only [dfdvInStepT]
        rw [if_pos hc]
      have huniq' : ∀ e w1 w2,
          NBWalk vars cs0 ((cs0.getD ci default).l) (some ci) (w1 ++ [e]) →
          NBWalk vars cs0 ((cs0.getD ci default).l) (some ci) (w2 ++ [e]) → w1 = w2 := by
        intro e w1 w2 h1 h2
        have := huniq e (ci :: w1) (ci :: w2)
          (by rw [List.cons_append]; exact hprep _ h1)
          (by rw [List.cons_append]; exact hprep _ h2)
        exact List.tail_eq_of_cons_eq this
      have hsl' : ∀ e w, NBWalk vars cs0 ((cs0.getD ci default).l) (some ci) (w ++ [e]) →
          (cs0.getD e default).l ≠ (cs0.getD e default).r := by
        intro e w h1
        exact hsl e (ci :: w) (by rw [List.cons_append]; exact hprep _ h1)
      have hsubnd : (compute_dfdvT vars n acc.1.1 ((acc.1.1.getD ci default).l)
          (some ci)).2.Nodup := by
        rw [hp.1]
        exact HN acc.1.1 ((cs0.getD ci default).l) (some ci) hsk huniq' hsl'
      have hsubre : ∀ x ∈ (compute_dfdvT vars n acc.1.1 ((acc.1.1.getD ci default).l)
          (some ci)).2, ReachesVia vars cs0 v last ci x := by
        intro x hx
        obtain ⟨w', hw'⟩ := trace_mem_walk vars n acc.1.1 ((acc.1.1.getD ci default).l)
          (some ci) cs0 hsk x hx
        rw [hp.1] at hw'
        refine ⟨ci :: w', ?_, by simp⟩
        rw [List.cons_append]
        exact hprep _ hw'
      have hcire : ReachesVia vars cs0 v last ci ci :=
        ⟨[], by simpa using hprep [] (NBWalk.nil _ _), by simp⟩
      have hcinotsub : ci ∉ (compute_dfdvT vars n acc.1.1 ((acc.1.1.getD ci default).l)
          (some ci)).2 := by
        intro hmem
        obtain ⟨w'', hw''⟩ := trace_mem_walk vars n acc.1.1 ((acc.1.1.getD ci default).l)
          (some ci) cs0 hsk ci hmem
        rw [hp.1] at hw''
        have huw := huniq ci (ci :: w'') [] (by rw [List.cons_append]; exact hprep _ hw'')
          (by simpa using hprep [] (NBWalk.nil _ _))
        cases huw
      have hchunknd : (ci :: (compute_dfdvT vars n acc.1.1 ((acc.1.1.getD ci default).l)
          (some ci)).2).Nodup := List.nodup_cons.mpr ⟨hcinotsub, hsubnd⟩
      have hdisj : ∀ e ∈ acc.2, e ∉ (ci :: (compute_dfdvT vars n acc.1.1
          ((acc.1.1.getD ci default).l) (some ci)).2) := by
        intro e he hmem
        obtain ⟨ch, hchS, hchre⟩ := hre e he
        have hcire2 : ReachesVia vars cs0 v last ci e := by
          rcases List.mem_cons.mp hmem with rfl | hsub
          · exact hcire
          · exact hsubre e hsub
        have hchci := reachesVia_head_eq vars cs0 v last e ch ci huniq hchre hcire2
        rw [hchci] at hchS
        exact hS ci (List.mem_cons_self ci t) ⟨hc.1, hact0⟩ hchS
      have hnd2 : (dfdvInStepT (compute_dfdvT vars n) last acc ci).2.Nodup := by
        rw [htr]
        exact List.Nodup.append hnd hchunknd (fun e he hmem => hdisj e he hmem)
      have hre2 : ∀ e ∈ (dfdvInStepT (compute_dfdvT vars n) last acc ci).2,
          ∃ ch ∈ S ++ [ci], ReachesVia vars cs0 v last ch e := by
        rw [htr]
        intro e he
        rcases List.mem_append.mp he with hold | hnew
        · obtain ⟨ch, hchS, hchre⟩ := hre e hold
          exact ⟨ch, List.mem_append_left _ hchS, hchre⟩
        · rcases List.mem_cons.mp hnew with rfl | hsub
          · exact ⟨e, List.mem_append_right _ (List.mem_singleton.mpr rfl), hcire⟩
          · exact ⟨ci, List.mem_append_right _ (List.mem_singleton.mpr rfl), hsubre e hsub⟩
      have hsk2 : skelOf (dfdvInStepT (compute_dfdvT vars n) last acc ci).1.1
          = skelOf cs0 := by
        simp only [dfdvInStepT]
        rw [if_pos hc]
        show skelOf ((compute_dfdvT vars n acc.1.1 ((acc.1.1.getD ci default).l)
          (some ci)).1.1.set ci _) = skelOf cs0
        rw [skelOf_set_lm, compute_dfdvT_skel]
        exact hsk
      have hS2 : ∀ cj ∈ t, (some cj ≠ last ∧ (cs0.getD cj default).active = true) →
          cj ∉ S ++ [ci] := by
        intro cj hcj hcond hmem
        rcases List.mem_append.mp hmem with hS' | hci'
        · exact hS cj (List.mem_cons_of_mem ci hcj) hcond hS'
        · have : cj = ci := List.mem_singleton.mp hci'
          subst this
          exact (List.nodup_cons.mp hlnd).1 hcj
      obtain ⟨S', hS'1, hS'2, hS'3, hS'4⟩ := ih (List.nodup_cons.mp hlnd).2
        (fun cj hcj => hlsub cj (List.mem_cons_of_mem ci hcj)) (S ++ [ci]) hS2
        (dfdvInStepT (compute_dfdvT vars n) last acc ci) hsk2 hnd2 hre2
      refine ⟨S', hS'1, hS'2, hS'3, ?_⟩
      intro x hx
      rcases hS'4 x hx with hxS | hxt
      · rcases List.mem_append.mp hxS with h1 | h2
        · exact Or.inl h1
        · exact Or.inr (List.mem_singleton.mp h2 ▸ List.mem_cons_self ci t)
      · exact Or.inr (List.mem_cons_of_mem ci hxt)
    · have hstep : dfdvInStepT (compute_dfdvT vars n) last acc ci = acc := by
        simp only [dfdvInStepT]; rw [if_neg hc]
      rw [hstep]
      obtain ⟨S', h1, h2, h3, h4⟩ := ih (List.nodup_cons.mp hlnd).2
        (fun cj hcj => hlsub cj (List.mem_cons_of_mem ci hcj)) S
        (fun cj hcj hcond => hS cj (List.mem_cons_of_mem ci hcj) hcond) acc hsk hnd hre
      refine ⟨S', h1, h2, h3, ?_⟩
      intro x hx
      rcases h4 x hx with h | h
      · exact Or.inl h
      · exact Or.inr (List.mem_cons_of_mem ci h)

/-- At-most-once: with well-formed incidence lists (`out`/`in` lists
duplicate-free and consistent with the constraint endpoints), unique
non-backtracking paths and no active self-loops reachable from the
start, the ghost trace of the recursion is duplicate-free — no active
edge is processed twice. -/
theorem trace_nodup (vars : List Variable) (cs0 : List Constraint)
    (hwfo : ∀ v', (vars.getD v' default).out.Nodup)
    (hwfi : ∀ v', (vars.getD v' default).inn.Nodup)
    (hol : ∀ v' ci, ci ∈ (vars.getD v' default).out → (cs0.getD ci default).l = v')
    (hir : ∀ v' ci, ci ∈ (vars.getD v' default).inn → (cs0.getD ci default).r = v') :
    ∀ (fuel : Nat) (cs : List Constraint) (v : Nat) (last : Option Nat),
    skelOf cs = skelOf cs0 →
    (∀ e w1 w2, NBWalk vars cs0 v last (w1 ++ [e]) →
      NBWalk vars cs0 v last (w2 ++ [e]) → w1 = w2) →
    (∀ e w, NBWalk vars cs0 v last (w ++ [e]) →
      (cs0.getD e default).l ≠ (cs0.getD e default).r) →
    (compute_dfdvT vars fuel cs v last).2.Nodup := by
  intro fuel
  induction fuel with
  | zero => intro cs v last _ _ _; exact List.nodup_nil
  | succ n ih =>
    intro cs v last hsk huniq hsl
    obtain ⟨S1, hm1, hm2, hm3, hm4⟩ := trace_fold_out_nodup vars n cs0 v last ih huniq hsl
      (vars.getD v default).out (hwfo v) (fun ci h => h) []
      (fun ci _ _ h => absurd h (List.not_mem_nil ci))
      ((cs, 2 * ((vars.getD v default).x - (vars.getD v default).d)), [])
      hsk List.nodup_nil (fun e he => absurd he (List.not_mem_nil e))
    have hS1sub : ∀ x ∈ S1, x ∈ (vars.getD v default).out := by
      intro x hx
      rcases hm4 x hx with h | h
      · exact absurd h (List.not_mem_nil x)
      · exact h
    have hSin : ∀ ci ∈ (vars.getD v default).inn,
        (some ci ≠ last ∧ (cs0.getD ci default).active = true) → ci ∉ S1 := by
      intro ci hci hcond hmem
      have hout := hS1sub ci hmem
      have hl := hol v ci hout
      have hr := hir v ci hci
      have hwalk : NBWalk vars cs0 v last ([] ++ [ci]) := by
        simpa using NBWalk.consIn v last ci [] hcond.1 hci hcond.2
          (NBWalk.nil ((cs0.getD ci default).l) (some ci))
      exact hsl ci [] hwalk (hl.trans hr.symm)
    obtain ⟨S2, hn1, hn2, hn3, hn4⟩ := trace_fold_in_nodup vars n cs0 v last ih huniq hsl
      (vars.getD v default).inn (hwfi v) (fun ci h => h) S1 hSin
      ((vars.getD v default).out.foldl (dfdvOutStepT (compute_dfdvT vars n) last)
        ((cs, 2 * ((vars.getD v default).x - (vars.getD v default).d)), []))
      hm3 hm1 hm2
    exact hn1


/-- C7: under the precondition that the active constraints reachable
from the root `v` form a tree, `compute_dfdv` terminates with bounded
recursion depth and processes each active tree edge exactly once.
Precisely: (1) if every non-backtracking active walk from `v` has length
at most `D` (in a tree, `D` can be taken to be the diameter), any fuel
beyond `D + 1` leaves the result unchanged — the recursion depth is
bounded by `D + 1`; (2) if no walk repeats a constraint (no cycle of
active constraints), fuel `cs.length + 1` suffices; (3) the ghost trace
of processed edges projects onto the computation itself; (4) every
processed edge is an active edge reachable by a walk (only tree edges
are processed); (5) under the no-cycle precondition and sufficient fuel,
every reachable active edge is processed; and (6) with well-formed
incidence lists, unique non-backtracking paths and no reachable active
self-loop — the tree precondition — no edge is processed twice.
Together, (4), (5) and (6) say the processed-edge trace lists each
active tree edge exactly once. -/
theorem c7_compute_dfdv_terminates (vars : List Variable) (cs : List Constraint) (v : Nat)
    (D f e : Nat) :
    ((∀ w, NBWalk vars cs v none w → w.length ≤ D) → D + 1 ≤ f →
      compute_dfdv vars f cs v none = compute_dfdv vars (D + 1) cs v none)
    ∧ ((∀ w, NBWalk vars cs v none w → w.Nodup) → cs.length + 1 ≤ f →
      compute_dfdv vars f cs v none = compute_dfdv vars (cs.length + 1) cs v none)
    ∧ (compute_dfdvT vars f cs v none).1 = compute_dfdv vars f cs v none
    ∧ (e ∈ (compute_dfdvT vars f cs v none).2 → ∃ w, NBWalk vars cs v none (w ++ [e]))
    ∧ ((∀ w, NBWalk vars cs v none w → w.Nodup) → cs.length + 1 ≤ f →
      (∃ w, NBWalk vars cs v none (w ++ [e])) → e ∈ (compute_dfdvT vars f cs v none).2)
    ∧ ((∀ v', (vars.getD v' default).out.Nodup) →
      (∀ v', (vars.getD v' default).inn.Nodup) →
      (∀ v' ci, ci ∈ (vars.getD v' default).out → (cs.getD ci default).l = v') →
      (∀ v' ci, ci ∈ (vars.getD v' default).inn → (cs.getD ci default).r = v') →
      (∀ e' w1 w2, NBWalk vars cs v none (w1 ++ [e']) →
        NBWalk vars cs v none (w2 ++ [e']) → w1 = w2) →
      (∀ e' w, NBWalk vars cs v none (w ++ [e']) →
        (cs.getD e' default).l ≠ (cs.getD e' default).r) →
      (compute_dfdvT vars f cs v none).2.Nodup) := by
  refine ⟨?_, ?_, compute_dfdvT_fst vars f cs v none, ?_, ?_, ?_⟩
  · intro hD hf
    have hb : ∀ w, NBWalk vars cs v none w → w.length < D + 1 := fun w hw =>
      Nat.lt_succ_of_le (hD w hw)
    exact compute_dfdv_stable vars (D + 1) cs v none f (D + 1) hb hf (le_refl _)
  · intro htree hf
    have hb : ∀ w, NBWalk vars cs v none w → w.length < cs.length + 1 := fun w hw =>
      Nat.lt_succ_of_le
        (nodup_length_le w cs.length (htree w hw) (nbwalk_edges_lt vars cs hw))
    exact compute_dfdv_stable vars (cs.length + 1) cs v none f (cs.length + 1) hb hf
      (le_refl _)
  · exact trace_mem_walk vars f cs v none cs rfl e
  · intro htree hf hreach
    obtain ⟨w, hw⟩ := hreach
    have hlen : (w ++ [e]).length ≤ f := by
      have := nodup_length_le (w ++ [e]) cs.length (htree (w ++ [e]) hw)
        (nbwalk_edges_lt vars cs hw)
      omega
    exact trace_complete vars w e cs v none cs rfl hw f hlen
  · intro hwfo hwfi hol hir huniq hsl
    exact trace_nodup vars cs hwfo hwfi hol hir f cs v none rfl huniq hsl

/-- C7 witness: the two-variable block with the single active constraint
`0` (an active tree with one edge, diameter `1`).  Its non-backtracking
walks from the root are `[]` and `[0]`: fuel collapses to `2`, the trace
projects onto the computation, edge `0` is reachable and processed, and
the trace is duplicate-free. -/
theorem c7_compute_dfdv_terminates_witness :
    compute_dfdv [⟨0, 1, 0, 0, [0], []⟩, ⟨0, -1, 0, 1, [], [0]⟩] 7
        [⟨0, 1, 1, true, 5⟩] 0 none
      = compute_dfdv [⟨0, 1, 0, 0, [0], []⟩, ⟨0, -1, 0, 1, [], [0]⟩] 2
        [⟨0, 1, 1, true, 5⟩] 0 none
    ∧ (compute_dfdvT [⟨0, 1, 0, 0, [0], []⟩, ⟨0, -1, 0, 1, [], [0]⟩] 7
        [⟨0, 1, 1, true, 5⟩] 0 none).1
      = compute_dfdv [⟨0, 1, 0, 0, [0], []⟩, ⟨0, -1, 0, 1, [], [0]⟩] 7
        [⟨0, 1, 1, true, 5⟩] 0 none
    ∧ 0 ∈ (compute_dfdvT [⟨0, 1, 0, 0, [0], []⟩, ⟨0, -1, 0, 1, [], [0]⟩] 7
        [⟨0, 1, 1, true, 5⟩] 0 none).2
    ∧ (compute_dfdvT [⟨0, 1, 0, 0, [0], []⟩, ⟨0, -1, 0, 1, [], [0]⟩] 7
        [⟨0, 1, 1, true, 5⟩] 0 none).2.Nodup := by
  have hall : ∀ w, NBWalk [⟨0, 1, 0, 0, [0], []⟩, ⟨0, -1, 0, 1, [], [0]⟩]
      [⟨0, 1, 1, true, 5⟩] 0 none w → w = [] ∨ w = [0] := by
    intro w hw
    cases hw with
    | nil => exact Or.inl rfl
    | consOut v' last' ci w' hne hmem hact htail =>
      have hci : ci = 0 := by simpa [List.getD] using hmem
      subst hci
      cases htail with
      | nil => exact Or.inr rfl
      | consOut v'' last'' cj w'' hne2 hmem2 hact2 htail2 =>
        have : cj ∈ ([] : List Nat) := by simpa [List.getD] using hmem2
        cases this
      | consIn v'' last'' cj w'' hne2 hmem2 hact2 htail2 =>
        have hcj : cj = 0 := by simpa [List.getD] using hmem2
        subst hcj
        exact absurd rfl hne2
    | consIn v' last' ci w' hne hmem hact htail =>
      have : ci ∈ ([] : List Nat) := by simpa [List.getD] using hmem
      cases this
  have h := c7_compute_dfdv_terminates [⟨0, 1, 0, 0, [0], []⟩, ⟨0, -1, 0, 1, [], [0]⟩]
    [⟨0, 1, 1, true, 5⟩] 0 1 7 0
  have htree : ∀ w, NBWalk [⟨0, 1, 0, 0, [0], []⟩, ⟨0, -1, 0, 1, [], [0]⟩]
      [⟨0, 1, 1, true, 5⟩] 0 none w → w.Nodup := by
    intro w hw
    rcases hall w hw with rfl | rfl <;> decide
  have hwalk0 : NBWalk [⟨0, 1, 0, 0, [0], []⟩, ⟨0, -1, 0, 1, [], [0]⟩]
      [⟨0, 1, 1, true, 5⟩] 0 none ([] ++ [0]) := by
    refine NBWalk.consOut 0 none 0 [] (by simp) (by decide) (by decide) ?_
    exact NBWalk.nil _ _
  have hsingle : ∀ w1, w1 ++ [0] = ([] : List Nat) ∨ w1 ++ [0] = [0] → w1 = [] := by
    intro w1 h1
    rcases h1 with h1 | h1
    · exact absurd h1 (by simp)
    · cases w1 with
      | nil => rfl
      | cons a t =>
        rw [List.cons_append] at h1
        have := List.tail_eq_of_cons_eq h1
        exact absurd this (by simp)
  refine ⟨h.1 (fun w hw => by rcases hall w hw with rfl | rfl <;> decide) (by decide),
    h.2.2.1, h.2.2.2.2.1 htree (by decide) ⟨[], hwalk0⟩, ?_⟩
  refine h.2.2.2.2.2 ?_ ?_ ?_ ?_ ?_ ?_
  · intro v'
    match v' with
    | 0 => decide
    | 1 => decide
    | n + 2 => rw [List.getD_eq_default _ _ (by simp)]; exact List.nodup_nil
  · intro v'
    match v' with
    | 0 => decide
    | 1 => decide
    | n + 2 => rw [List.getD_eq_default _ _ (by simp)]; exact List.nodup_nil
  · intro v' ci hci
    match v' with
    | 0 =>
      have : ci = 0 := by simpa [List.getD] using hci
      subst this; rfl
    | 1 => exact absurd (by simpa [List.getD] using hci) (List.not_mem_nil ci)
    | n + 2 =>
      rw [List.getD_eq_default _ _ (by simp)] at hci
      exact absurd hci (List.not_mem_nil ci)
  · intro v' ci hci
    match v' with
    | 0 => exact absurd (by simpa [List.getD] using hci) (List.not_mem_nil ci)
    | 1 =>
      have : ci = 0 := by simpa [List.getD] using hci
      subst this; rfl
    | n + 2 =>
      rw [List.getD_eq_default _ _ (by simp)] at hci
      exact absurd hci (List.not_mem_nil ci)
  · intro e' w1 w2 h1 h2
    have hh1 := hall (w1 ++ [e']) h1
    have he1 : e' = 0 := by
      rcases hh1 with habs | heq
      · exact absurd habs (by simp)
      · have hm : e' ∈ w1 ++ [e'] := by simp
        rw [heq] at hm
        exact List.mem_singleton.mp hm
    rw [he1] at hh1
    have hh2 := hall (w2 ++ [e']) h2
    rw [he1] at hh2
    rw [hsingle w1 hh1, hsingle w2 hh2]
  · intro e' w h1
    have he' : (w ++ [e']) = [0] := by
      rcases hall (w ++ [e']) h1 with habs | heq
      · exact absurd habs (by simp)
      · exact heq
    have : e' = 0 := by
      have hm : e' ∈ w ++ [e'] := by simp
      rw [he'] at hm
      exact List.mem_singleton.mp hm
    subst this
    decide


end algorithm
